import Mathlib

/-!
Verification of the changes-trie builder (primitives/state-machine/src/changes_trie/build.rs)
and the RPC state collaborator boundary (client/rpc/src/state), against the repository's
natural-language specification.

The Rust code is shallowly embedded: maps (Rust BTreeMap) become association lists kept
sorted by key, fallible code returns an explicit result type, and collaborator traits
(Backend, Storage, OverlayedChanges read surface) become structures of functions.
Definitions are translated from build.rs; collaborators whose sources are not part of
this slice (build_iterator.rs, overlayed_changes.rs, state_full.rs) are modelled from
the specification and are marked as such in their doc comments.
-/

namespace ChangesTrie

/-- Raw storage keys, storage values and trie root hashes: byte strings, as lists of Nat. -/
abbrev Bytes := List Nat

/-- Strict lexicographic byte-string order, the order in which a Rust BTreeMap keyed by
a byte vector iterates its entries. -/
def bytesLt : Bytes → Bytes → Bool
  | [], [] => false
  | [], _ :: _ => true
  | _ :: _, [] => false
  | a :: as, b :: bs => if a < b then true else if b < a then false else bytesLt as bs

theorem bytesLt_irrefl (a : Bytes) : bytesLt a a = false := by
  induction a with
  | nil => rfl
  | cons x xs ih => simp [bytesLt, ih]

theorem bytesLt_trans : ∀ {a b c : Bytes},
    bytesLt a b = true → bytesLt b c = true → bytesLt a c = true
  | [], [], _, h, _ => by simp [bytesLt] at h
  | [], _ :: _, [], _, h => by simp [bytesLt] at h
  | [], _ :: _, _ :: _, _, _ => by simp [bytesLt]
  | _ :: _, [], _, h, _ => by simp [bytesLt] at h
  | _ :: _, _ :: _, [], _, h => by simp [bytesLt] at h
  | x :: xs, y :: ys, z :: zs, h1, h2 => by
    simp only [bytesLt] at h1 h2 ⊢
    split at h1
    · rename_i hxy
      split at h2
      · rename_i hyz; simp [Nat.lt_trans hxy hyz]
      · split at h2
        · simp at h2
        · rename_i hzy hyz
          have : y = z := Nat.le_antisymm (Nat.le_of_not_lt hyz) (Nat.le_of_not_lt hzy)
          subst this; simp [hxy]
    · split at h1
      · simp at h1
      · rename_i hyx hxy
        have hxyeq : x = y := Nat.le_antisymm (Nat.le_of_not_lt hxy) (Nat.le_of_not_lt hyx)
        subst hxyeq
        split at h2
        · rename_i hxz; simp [hxz]
        · split at h2
          · simp at h2
          · rename_i hzx hxz
            simp only [if_neg hxz, if_neg hzx]
            exact bytesLt_trans h1 h2

theorem bytesLt_antisymm : ∀ {a b : Bytes},
    bytesLt a b = false → bytesLt b a = false → a = b
  | [], [], _, _ => rfl
  | [], _ :: _, h, _ => by simp [bytesLt] at h
  | _ :: _, [], _, h => by simp [bytesLt] at h
  | x :: xs, y :: ys, h1, h2 => by
    simp only [bytesLt] at h1 h2
    split at h1
    · simp at h1
    · rename_i hxy
      split at h2
      · simp at h2
      · rename_i hyx
        have : x = y := Nat.le_antisymm (Nat.le_of_not_lt hyx) (Nat.le_of_not_lt hxy)
        subst this
        simp only [if_neg hxy] at h1 h2
        rw [bytesLt_antisymm h1 h2]

theorem bytesLt_asymm {a b : Bytes} (h : bytesLt a b = true) : bytesLt b a = false := by
  cases hba : bytesLt b a with
  | false => rfl
  | true => have := bytesLt_trans h hba; rw [bytesLt_irrefl] at this; exact absurd this (by simp)

theorem ne_of_bytesLt {a b : Bytes} (h : bytesLt a b = true) : a ≠ b := by
  intro he; subst he; rw [bytesLt_irrefl] at h; exact absurd h (by simp)

/-- A Rust BTreeMap with byte-string keys, embedded as an association list that is kept
sorted by strictly ascending key. -/
abbrev BMap (V : Type) := List (Bytes × V)

/-- Keys of the map, in iteration order. -/
def bkeys {V : Type} (m : BMap V) : List Bytes := m.map Prod.fst

/-- Embedding of the BTreeMap get / entry-lookup operation. -/
def mapLookup {V : Type} (k : Bytes) : BMap V → Option V
  | [] => none
  | (k', v) :: t => if k = k' then some v else mapLookup k t

/-- Embedding of the BTreeMap entry API: if the key is vacant insert the default value d
at its sorted position, if it is occupied replace the stored value v by f v. -/
def mapInsertWith {V : Type} (k : Bytes) (f : V → V) (d : V) : BMap V → BMap V
  | [] => [(k, d)]
  | (k', v) :: t =>
    if bytesLt k k' then (k, d) :: (k', v) :: t
    else if k = k' then (k', f v) :: t
    else (k', v) :: mapInsertWith k f d t

/-- Well-formedness of an embedded BTreeMap: keys strictly ascending. -/
def mapSorted {V : Type} (m : BMap V) : Prop :=
  List.Pairwise (fun a b => bytesLt a b = true) (bkeys m)

theorem bkeys_mapInsertWith {V : Type} (k : Bytes) (f : V → V) (d : V) (m : BMap V) :
    ∀ a, a ∈ bkeys (mapInsertWith k f d m) ↔ a = k ∨ a ∈ bkeys m := by
  induction m with
  | nil => intro a; simp [mapInsertWith, bkeys]
  | cons e t ih =>
    intro a
    obtain ⟨k', v⟩ := e
    simp only [mapInsertWith]
    split
    · simp [bkeys]
    · split
      · rename_i hlt heq; subst heq; simp [bkeys]
      · simp only [bkeys, List.map_cons, List.mem_cons]
        rw [show bkeys t = List.map Prod.fst t from rfl] at ih
        rw [show ∀ (x : BMap V), List.map Prod.fst x = bkeys x from fun _ => rfl]
        constructor
        · rintro (h | h)
          · right; left; exact h
          · rcases (ih a).mp h with h | h
            · left; exact h
            · right; right; exact h
        · rintro (h | h | h)
          · right; exact (ih a).mpr (Or.inl h)
          · left; exact h
          · right; exact (ih a).mpr (Or.inr h)

theorem mapSorted_mapInsertWith {V : Type} (k : Bytes) (f : V → V) (d : V) (m : BMap V)
    (h : mapSorted m) : mapSorted (mapInsertWith k f d m) := by
  induction m with
  | nil => simp [mapInsertWith, mapSorted, bkeys]
  | cons e t ih =>
    obtain ⟨k', v⟩ := e
    simp only [mapSorted, bkeys, List.map_cons, List.pairwise_cons] at h
    simp only [mapInsertWith]
    split
    · rename_i hlt
      simp only [mapSorted, bkeys, List.map_cons, List.pairwise_cons]
      refine ⟨?_, ?_, h.2⟩
      · intro y hy
        rcases List.mem_cons.mp hy with hy | hy
        · subst hy; exact hlt
        · exact bytesLt_trans hlt (h.1 y hy)
      · exact h.1
    · split
      · rename_i hlt heq; subst heq
        simpa only [mapSorted, bkeys, List.map_cons, List.pairwise_cons] using h
      · rename_i hlt hne
        have hk'k : bytesLt k' k = true := by
          cases hc : bytesLt k' k with
          | true => rfl
          | false =>
            exact absurd (bytesLt_antisymm (by simpa using hlt) hc) hne
        simp only [mapSorted, bkeys, List.map_cons, List.pairwise_cons]
        constructor
        · intro y hy
          have hymem : y ∈ bkeys (mapInsertWith k f d t) := by
            simpa [bkeys] using hy
          rcases (bkeys_mapInsertWith k f d t y).mp hymem with h1 | h1
          · subst h1; exact hk'k
          · exact h.1 y (by simpa [bkeys] using h1)
        · exact ih h.2

theorem mapInsertWith_forall {V : Type} (P : Bytes × V → Prop) (k : Bytes) (f : V → V)
    (d : V) (m : BMap V) (hm : ∀ e ∈ m, P e) (hd : P (k, d))
    (hf : ∀ v, P (k, v) → P (k, f v)) : ∀ e ∈ mapInsertWith k f d m, P e := by
  induction m with
  | nil => intro e he; simp [mapInsertWith] at he; subst he; exact hd
  | cons p t ih =>
    obtain ⟨k', v⟩ := p
    intro e he
    simp only [mapInsertWith] at he
    split at he
    · rcases List.mem_cons.mp he with he | he
      · subst he; exact hd
      · exact hm e he
    · split at he
      · rename_i heq; subst heq
        rcases List.mem_cons.mp he with he | he
        · subst he; exact hf v (hm (k, v) (List.mem_cons_self _ _))
        · exact hm e (List.mem_cons_of_mem _ he)
      · rcases List.mem_cons.mp he with he | he
        · subst he; exact hm (k', v) (List.mem_cons_self _ _)
        · exact ih (fun e' he' => hm e' (List.mem_cons_of_mem _ he')) e he

theorem mapLookup_mapInsertWith_ne {V : Type} (k k'' : Bytes) (f : V → V) (d : V)
    (m : BMap V) (hne : k'' ≠ k) :
    mapLookup k'' (mapInsertWith k f d m) = mapLookup k'' m := by
  induction m with
  | nil => simp [mapInsertWith, mapLookup, hne]
  | cons p t ih =>
    obtain ⟨k', v⟩ := p
    simp only [mapInsertWith]
    split
    · simp [mapLookup, hne]
    · split
      · rename_i heq; subst heq
        simp [mapLookup, hne]
      · simp only [mapLookup]
        split
        · rfl
        · exact ih

theorem mapLookup_mapInsertWith_self {V : Type} (k : Bytes) (f : V → V) (d : V)
    (m : BMap V) (hs : mapSorted m) :
    mapLookup k (mapInsertWith k f d m) =
      some (match mapLookup k m with | some v => f v | none => d) := by
  induction m with
  | nil => simp [mapInsertWith, mapLookup]
  | cons p t ih =>
    obtain ⟨k', v⟩ := p
    simp only [mapSorted, bkeys, List.map_cons, List.pairwise_cons] at hs
    simp only [mapInsertWith]
    split
    · rename_i hlt
      have hne : k ≠ k' := ne_of_bytesLt hlt
      -- k is below every key of the old map, so it was absent
      have habs : mapLookup k t = none := by
        clear ih
        induction t with
        | nil => rfl
        | cons q t2 ih2 =>
          obtain ⟨k2, v2⟩ := q
          have hk2 : bytesLt k' k2 = true := hs.1 k2 (by simp)
          simp only [mapLookup]
          rw [if_neg (ne_of_bytesLt (bytesLt_trans hlt hk2))]
          exact ih2 ⟨fun y hy => hs.1 y (by simp [hy]), hs.2.of_cons⟩
      simp [mapLookup, hne, habs]
    · split
      · rename_i heq; subst heq
        simp [mapLookup]
      · rename_i hlt hne
        simp only [mapLookup]
        rw [if_neg hne, if_neg hne]
        exact ih hs.2

theorem mapLookup_eq_none_of_not_mem {V : Type} (k : Bytes) (m : BMap V)
    (h : k ∉ bkeys m) : mapLookup k m = none := by
  induction m with
  | nil => rfl
  | cons p t ih =>
    obtain ⟨k', v⟩ := p
    simp only [bkeys, List.map_cons, List.mem_cons] at h
    push_neg at h
    simp only [mapLookup, if_neg h.1]
    exact ih h.2

theorem mem_bkeys_of_mapLookup {V : Type} (k : Bytes) (v : V) (m : BMap V)
    (h : mapLookup k m = some v) : k ∈ bkeys m := by
  induction m with
  | nil => simp [mapLookup] at h
  | cons p t ih =>
    obtain ⟨k', v'⟩ := p
    simp only [mapLookup] at h
    split at h
    · rename_i he; subst he; simp [bkeys]
    · simpa [bkeys] using Or.inr (by simpa [bkeys] using ih h)

/-- Key of an ExtrinsicIndex input pair (input.rs is describable from the spec data model:
pending block number plus raw storage key). -/
structure ExtrinsicIndex where
  block : Nat
  key : Bytes
deriving DecidableEq, Repr

/-- Key of a DigestIndex input pair: digest block number plus raw storage key. -/
structure DigestIndex where
  block : Nat
  key : Bytes
deriving DecidableEq, Repr

/-- Key of a ChildIndex input pair: block number plus child storage key. -/
structure ChildIndex where
  block : Nat
  storage_key : Bytes
deriving DecidableEq, Repr

/-- The builder's output alphabet (InputPair in input.rs): an ExtrinsicIndex key with its
extrinsic-index list, or a DigestIndex key with its covered-block list. -/
inductive InputPair where
  | extrinsicIndex (idx : ExtrinsicIndex) (extrinsics : List Nat)
  | digestIndex (idx : DigestIndex) (blocks : List Nat)
deriving DecidableEq, Repr

/-- Storage key of an input pair, disregarding its kind. -/
def InputPair.ikey : InputPair → Bytes
  | .extrinsicIndex i _ => i.key
  | .digestIndex i _ => i.key

/-- Value list of an input pair (extrinsic indices or covered blocks). -/
def InputPair.ival : InputPair → List Nat
  | .extrinsicIndex _ l => l
  | .digestIndex _ l => l

/-- Outcome of running builder code: a value, a formatted error string (Err(String)),
or a Rust panic (used for the copy_from_slice length mismatch in the digest pass). -/
inductive BuildResult (α : Type) where
  | ok (a : α)
  | err (msg : String)
  | panicked
deriving DecidableEq, Repr

/-- Changes-trie configuration (digest_interval at least 2, digest_levels at least 1 per
the spec's configuration-window invariants). -/
structure Configuration where
  digest_interval : Nat
  digest_levels : Nat
deriving DecidableEq, Repr

/-- ConfigurationRange: a configuration together with the window it applies to.
The field named end in the Rust source is a Lean keyword, hence the guillemets. -/
structure ConfigurationRange where
  config : Configuration
  zero : Nat
  «end» : Option Nat
deriving DecidableEq, Repr

/-- Modelled from the spec: the digest level of a block (ConfigurationRange digest
arithmetic lives in changes_trie/mod.rs and build_iterator.rs, which are not in src/).
Per spec 4.A, a block N past zero is a digest block iff (N - zero) mod interval^L == 0
for some L in [1, digest_levels], its level being the greatest such L; block zero itself
is never a digest block, and digest building requires interval >= 2 and levels >= 1. -/
def digest_level_at_block (config : Configuration) (zero N : Nat) : Option Nat :=
  if N ≤ zero ∨ config.digest_interval ≤ 1 ∨ config.digest_levels = 0 then none
  else (List.range config.digest_levels).reverse.findSome? (fun i =>
    if (N - zero) % config.digest_interval ^ (i + 1) = 0 then some (i + 1) else none)

/-- Modelled from the spec: digest_build_iterator (build_iterator.rs is not in src/).
Per spec 4.A it yields, ascending, the ancestor blocks a digest at N covers: if N has
level L, the blocks N - (interval - k) * interval^(L-1) for k in [1..=interval], except
those that are themselves digest blocks of level at least L. -/
def digest_build_iterator (config : ConfigurationRange) (N : Nat) : List Nat :=
  match digest_level_at_block config.config config.zero N with
  | none => []
  | some L =>
    let interval := config.config.digest_interval
    let step := interval ^ (L - 1)
    ((List.range interval).map (fun k => N - (interval - (k + 1)) * step)).filter
      (fun b => match digest_level_at_block config.config config.zero b with
        | some L' => decide (L' < L)
        | none => true)

/-- Modelled from the spec: next_max_level_digest_range (changes_trie/mod.rs is not in
src/). Per spec 4.A it returns the max-level digest window containing N: N_end is the
first multiple of interval^levels at or after N relative to zero, and the window starts
interval^levels - 1 blocks earlier. It is None when digest building is disabled. -/
def next_max_level_digest_range (config : Configuration) (zero N : Nat) :
    Option (Nat × Nat) :=
  if config.digest_interval ≤ 1 ∨ config.digest_levels = 0 then none
  else
    let p := config.digest_interval ^ config.digest_levels
    let d := N - zero
    let nend := zero + (if d % p = 0 then d else (d / p + 1) * p)
    some (nend + 1 - p, nend)

/-- Opaque child-trie metadata (ChildInfo): associative data required by the backend to
resolve child reads; the builder only passes it through, so a Nat id suffices. -/
abbrev ChildInfo := Nat

/-- One overlay entry: an optional value (None denotes deletion) and the optional set of
extrinsic indices that touched it (absent = written by system code, ignored). The set is
embedded as its sorted iteration order. -/
structure OverlayedValue where
  value : Option Bytes
  extrinsics : Option (List Nat)
deriving DecidableEq, Repr

/-- One change set of the overlay: a top map plus one map (with its ChildInfo) per child
storage key. -/
structure OverlayedChangeSet where
  top : BMap OverlayedValue
  children : BMap (BMap OverlayedValue × ChildInfo)
deriving DecidableEq, Repr

/-- The in-flight writes for the pending block: prospective and committed change sets.
collect_extrinsics gates the builder externally and is assumed true when it is invoked. -/
structure OverlayedChanges where
  prospective : OverlayedChangeSet
  committed : OverlayedChangeSet
  collect_extrinsics : Bool
deriving DecidableEq, Repr

/-- Modelled from the spec: the overlay read surface (overlayed_changes.rs is not in
src/). storage(key) is None when the overlay has no entry, Some(None) when it deletes,
Some(Some v) when it writes; the merged value reflects the last write, so the
prospective set is consulted before the committed one. -/
def OverlayedChanges.storage (c : OverlayedChanges) (k : Bytes) : Option (Option Bytes) :=
  match mapLookup k c.prospective.top with
  | some v => some v.value
  | none => (mapLookup k c.committed.top).map (fun v => v.value)

/-- Modelled from the spec: child variant of the overlay read surface. -/
def OverlayedChanges.child_storage (c : OverlayedChanges) (sk k : Bytes) :
    Option (Option Bytes) :=
  match (mapLookup sk c.prospective.children).bind (fun m => mapLookup k m.1) with
  | some v => some v.value
  | none => ((mapLookup sk c.committed.children).bind (fun m => mapLookup k m.1)).map
      (fun v => v.value)

/-- Modelled from the spec: ChildInfo lookup across both change sets. -/
def OverlayedChanges.child_info (c : OverlayedChanges) (sk : Bytes) : Option ChildInfo :=
  match mapLookup sk c.prospective.children with
  | some m => some m.2
  | none => (mapLookup sk c.committed.children).map (fun m => m.2)

/-- Modelled from the spec: the durable-storage backend contract (the Backend trait is
not in src/): existence probes for top and child keys, fallible with a formatted error
string. -/
structure BackendModel where
  exists_storage : Bytes → Except String Bool
  exists_child_storage : Bytes → ChildInfo → Bytes → Except String Bool

/-- Accumulator of the extrinsic-index pass for one scope: a BTreeMap from storage key
to the ExtrinsicIndex under construction and its extrinsic list. -/
abbrev ExtMap := BMap (ExtrinsicIndex × List Nat)

/-- One try_fold step of prepare_extrinsics_input_inner (build.rs lines 153-198): on a
vacant key apply the temporary-value filter (consult the overlay's merged final value
and, when it is absent or a deletion, the backend existence probe) before inserting; on
an occupied key extend the extrinsic list and sort it (sort_unstable, no dedup). -/
def extrinsics_step (backend : BackendModel) (changes : OverlayedChanges) (block : Nat)
    (storage_key : Option Bytes) (child_info : Option ChildInfo)
    (m : ExtMap) (kv : Bytes × OverlayedValue) : Except String ExtMap :=
  let k := kv.1
  let v := kv.2
  match mapLookup k m with
  | none =>
    -- Entry::Vacant: ignore temporary values (null at the end of the operation AND
    -- not in storage at the beginning of the operation)
    let inserted : ExtMap :=
      mapInsertWith k (fun p => p) ({ block := block, key := k }, v.extrinsics.getD []) m
    match storage_key with
    | some sk =>
      if !(((changes.child_storage sk k).map Option.isSome).getD false) then
        match child_info with
        | some ci =>
          match backend.exists_child_storage sk ci k with
          | .error e => .error e
          | .ok false => .ok m
          | .ok true => .ok inserted
        | none => .ok inserted
      else .ok inserted
    | none =>
      if !(((changes.storage k).map Option.isSome).getD false) then
        match backend.exists_storage k with
        | .error e => .error e
        | .ok false => .ok m
        | .ok true => .ok inserted
      else .ok inserted
  | some _ =>
    .ok (mapInsertWith k
      (fun p => (p.1, List.mergeSort (p.2 ++ v.extrinsics.getD []) (fun a b => decide (a ≤ b))))
      ({ block := block, key := k }, v.extrinsics.getD []) m)

/-- The try_fold of prepare_extrinsics_input_inner over the chained committed-then-
prospective entries (already filtered on extrinsics.is_some()). -/
def extrinsics_fold (backend : BackendModel) (changes : OverlayedChanges) (block : Nat)
    (storage_key : Option Bytes) (child_info : Option ChildInfo) :
    ExtMap → List (Bytes × OverlayedValue) → Except String ExtMap
  | m, [] => .ok m
  | m, kv :: rest =>
    match extrinsics_step backend changes block storage_key child_info m kv with
    | .error e => .error e
    | .ok m' => extrinsics_fold backend changes block storage_key child_info m' rest

/-- The committed and prospective maps of one scope together with its ChildInfo, as
resolved at the top of prepare_extrinsics_input_inner (build.rs lines 140-149). -/
def scope_maps (changes : OverlayedChanges) (storage_key : Option Bytes) :
    Option (BMap OverlayedValue) × Option (BMap OverlayedValue) × Option ChildInfo :=
  match storage_key with
  | some sk =>
    ((mapLookup sk changes.committed.children).map Prod.fst,
     (mapLookup sk changes.prospective.children).map Prod.fst,
     changes.child_info sk)
  | none => (some changes.committed.top, some changes.prospective.top, none)

/-- The entry sequence the extrinsic pass folds over for one scope: committed entries
chained before prospective ones, restricted to entries carrying extrinsics. -/
def scope_entries (changes : OverlayedChanges) (storage_key : Option Bytes) :
    List (Bytes × OverlayedValue) :=
  (((scope_maps changes storage_key).1.getD []) ++
    ((scope_maps changes storage_key).2.1.getD [])).filter
    (fun e => e.2.extrinsics.isSome)

/-- Embedding of prepare_extrinsics_input_inner (build.rs lines 129-200): fold the
scope's committed then prospective entries, skipping entries without extrinsics, then
emit the accumulated map as ExtrinsicIndex input pairs in ascending key order. -/
def prepare_extrinsics_input_inner (backend : BackendModel) (block : Nat)
    (changes : OverlayedChanges) (storage_key : Option Bytes) :
    Except String (List InputPair) :=
  match extrinsics_fold backend changes block storage_key
      (scope_maps changes storage_key).2.2 [] (scope_entries changes storage_key) with
  | .error e => .error e
  | .ok m => .ok (m.map (fun e => InputPair.extrinsicIndex e.2.1 e.2.2))

/-- Sorted-set insertion, embedding BTreeSet::insert for the children_keys set. -/
def setInsert (k : Bytes) : List Bytes → List Bytes
  | [] => [k]
  | k' :: t =>
    if bytesLt k k' then k :: k' :: t
    else if k = k' then k' :: t
    else k' :: setInsert k t

/-- The children_keys set of prepare_extrinsics_input (build.rs lines 108-113): every
child storage key appearing in the prospective or committed change set, iterated in
ascending order. -/
def children_keys_of (changes : OverlayedChanges) : List Bytes :=
  (changes.prospective.children ++ changes.committed.children).foldl
    (fun s e => setInsert e.1 s) []

/-- The per-child loop of prepare_extrinsics_input (build.rs lines 114-122): one entry
per child storage key, keyed by ChildIndex at the pending block. Since the keys come in
ascending order and the ChildIndex block component is constant, producing the entries in
list order matches the BTreeMap iteration order of children_result. -/
def prepare_children_extrinsics (backend : BackendModel) (block : Nat)
    (changes : OverlayedChanges) :
    List Bytes → Except String (List (ChildIndex × List InputPair))
  | [] => .ok []
  | sk :: rest =>
    match prepare_extrinsics_input_inner backend block changes (some sk) with
    | .error e => .error e
    | .ok pairs =>
      match prepare_children_extrinsics backend block changes rest with
      | .error e => .error e
      | .ok others => .ok (({ block := block, storage_key := sk }, pairs) :: others)

/-- Embedding of prepare_extrinsics_input (build.rs lines 94-127). -/
def prepare_extrinsics_input (backend : BackendModel) (block : Nat)
    (changes : OverlayedChanges) :
    Except String (List InputPair × List (ChildIndex × List InputPair)) :=
  match prepare_children_extrinsics backend block changes (children_keys_of changes) with
  | .error e => .error e
  | .ok children_result =>
    match prepare_extrinsics_input_inner backend block changes none with
    | .error e => .error e
    | .ok top => .ok (top, children_result)

/-- Decoded view of one historical changes trie, as the digest pass reads it through the
three key-neutral prefix scans at its build block. The injective codec is out of scope,
so each scanned entry carries its decode result directly: none stands for a decode
failure, which build.rs silently skips. -/
structure TrieContent where
  childEntries : List (Option Bytes × Option Bytes)
  extrinsicKeys : List (Option Bytes)
  digestKeys : List (Option Bytes)

/-- Modelled from the spec: the historical-root storage contract (the Storage trait and
its InMemoryStorage implementation are not in src/), specialised to the fixed anchor of
one build: root(parent, b), the cached-changed-keys fast path keyed by trie root, and
the trie content reachable from a root hash. hashLen is the hasher's output length,
against which copy_from_slice compares decoded child-root values. -/
structure StorageModel where
  hashLen : Nat
  root : Nat → Except String (Option Bytes)
  cachedChangedKeys : Bytes → Option (List (Option Bytes × List Bytes))
  trie : Bytes → TrieContent

/-- Accumulated DigestIndex pairs of one scope (map in prepare_digest_input). -/
abbrev DigMap := BMap (DigestIndex × List Nat)

/-- Accumulated per-child DigestIndex maps (child_map in prepare_digest_input). All its
ChildIndex keys share the pending block number, so the map is keyed here by the child
storage key alone and the ChildIndex is rebuilt on output; the BTreeMap iteration order
over ChildIndex with a constant block component is exactly ascending storage-key order. -/
abbrev ChildDigMap := BMap DigMap

/-- Embedding of the insert_to_map closure of prepare_digest_input (build.rs lines
238-258): a vacant key is inserted as a DigestIndex at the pending block with the
one-element list of the digest build block; an occupied key appends the digest build
block only if the last stored element differs from it. -/
def insert_to_map (block digest_build_block : Nat) (m : DigMap) (key : Bytes) : DigMap :=
  mapInsertWith key
    (fun p => if p.2.getLast? = some digest_build_block then p
              else (p.1, p.2 ++ [digest_build_block]))
    ({ block := block, key := key }, [digest_build_block]) m

/-- One prefix scan feeding insert_to_map: decoded keys are inserted, decode failures
are skipped. -/
def scanKeys (block digest_build_block : Nat) (keys : List (Option Bytes)) (m : DigMap) :
    DigMap :=
  keys.foldl (fun m k? =>
    match k? with
    | some k => insert_to_map block digest_build_block m k
    | none => m) m

/-- The with_cached_changed_keys callback of prepare_digest_input (build.rs lines
260-279): for every scope entry of the cached keys map, insert each changed key into
the top map (scope None) or into the or_default child map entry (scope Some sk). -/
def mergeCached (block digest_build_block : Nat)
    (ck : List (Option Bytes × List Bytes)) (maps : DigMap × ChildDigMap) :
    DigMap × ChildDigMap :=
  ck.foldl (fun maps e =>
    match e.1 with
    | none => (e.2.foldl (insert_to_map block digest_build_block) maps.1, maps.2)
    | some sk =>
      (maps.1,
       mapInsertWith sk
         (fun sub => e.2.foldl (insert_to_map block digest_build_block) sub)
         (e.2.foldl (insert_to_map block digest_build_block) [])
         maps.2)) maps

/-- The children_roots collection of prepare_digest_input (build.rs lines 284-298):
scan the ChildIndex prefix; entries whose key or value fails to decode are skipped;
a decoded value is copied into a hash buffer by copy_from_slice, which panics when the
value length differs from the hasher output length; insertion overwrites (BTreeMap
insert). -/
def collect_children_roots (hashLen : Nat) :
    List (Option Bytes × Option Bytes) → BMap Bytes → BuildResult (BMap Bytes)
  | [], acc => .ok acc
  | (skOpt, vOpt) :: rest, acc =>
    match skOpt, vOpt with
    | some sk, some v =>
      if v.length = hashLen then
        collect_children_roots hashLen rest (mapInsertWith sk (fun _ => v) v acc)
      else .panicked
    | _, _ => collect_children_roots hashLen rest acc

/-- One try_fold step of prepare_digest_input over a covered block (build.rs lines
230-332): resolve the trie root (Ok(None) is the missing-root error), try the cache
fast path, otherwise walk the trie: collect children roots, scan the top extrinsic and
digest prefixes, then scan both prefixes of every child trie into its or_default child
map entry. -/
def digest_input_step (S : StorageModel) (block : Nat) (maps : DigMap × ChildDigMap)
    (digest_build_block : Nat) : BuildResult (DigMap × ChildDigMap) :=
  match S.root digest_build_block with
  | .error e => .err e
  | .ok none => .err ("No changes trie root for block " ++ toString digest_build_block)
  | .ok (some trie_root) =>
    match S.cachedChangedKeys trie_root with
    | some ck => .ok (mergeCached block digest_build_block ck maps)
    | none =>
      match collect_children_roots S.hashLen (S.trie trie_root).childEntries [] with
      | .err e => .err e
      | .panicked => .panicked
      | .ok children_roots =>
        let m := scanKeys block digest_build_block (S.trie trie_root).extrinsicKeys maps.1
        let m := scanKeys block digest_build_block (S.trie trie_root).digestKeys m
        let cm := children_roots.foldl (fun cm e =>
          mapInsertWith e.1
            (fun sub => scanKeys block digest_build_block (S.trie e.2).digestKeys
              (scanKeys block digest_build_block (S.trie e.2).extrinsicKeys sub))
            (scanKeys block digest_build_block (S.trie e.2).digestKeys
              (scanKeys block digest_build_block (S.trie e.2).extrinsicKeys []))
            cm) maps.2
        .ok (m, cm)

/-- The try_fold of prepare_digest_input over the covered blocks, aborting on the first
error or panic. -/
def digest_fold (S : StorageModel) (block : Nat) :
    DigMap × ChildDigMap → List Nat → BuildResult (DigMap × ChildDigMap)
  | maps, [] => .ok maps
  | maps, b :: rest =>
    match digest_input_step S block maps b with
    | .err e => .err e
    | .panicked => .panicked
    | .ok maps' => digest_fold S block maps' rest

/-- The block whose coverage the digest enumerates (build.rs lines 219-226): the pending
block itself, or, for a skewed digest (config.end == Some(block)), the end of the next
max-level digest range, falling back to the pending block when that range is absent. -/
def block_for_digest_of (config : ConfigurationRange) (block : Nat) : Nat :=
  if config.«end» = some block then
    ((next_max_level_digest_range config.config config.zero block).map Prod.snd).getD block
  else block

/-- Embedding of prepare_digest_input (build.rs lines 204-340). -/
def prepare_digest_input (S : StorageModel) (config : ConfigurationRange) (block : Nat) :
    BuildResult (List InputPair × List (ChildIndex × List InputPair) × List Nat) :=
  let digest_input_blocks :=
    digest_build_iterator config (block_for_digest_of config block)
  match digest_fold S block ([], []) digest_input_blocks with
  | .err e => .err e
  | .panicked => .panicked
  | .ok (m, cm) =>
    .ok (m.map (fun e => InputPair.digestIndex e.2.1 e.2.2),
         cm.map (fun e =>
           (({ block := block, storage_key := e.1 } : ChildIndex),
            e.2.map (fun p => InputPair.digestIndex p.2.1 p.2.2))),
         digest_input_blocks)

/-- Anchor of the pending block's parent: (hash, number). Only the number participates
in the embedded arithmetic; the hash, used by storage to disambiguate forks, is opaque. -/
structure AnchorBlockId where
  hash : Nat
  number : Nat
deriving DecidableEq, Repr

/-- BTreeMap::remove keyed by ChildIndex, for the children merge of prepare_input. -/
def removeChild (ci : ChildIndex) (m : List (ChildIndex × List InputPair)) :
    List (ChildIndex × List InputPair) :=
  m.filter (fun e => !(e.1 == ci))

/-- BTreeMap::get keyed by ChildIndex, for the children merge of prepare_input. -/
def lookupChild (ci : ChildIndex) : List (ChildIndex × List InputPair) →
    Option (List InputPair)
  | [] => none
  | e :: t => if e.1 == ci then some e.2 else lookupChild ci t

/-- The children merge of prepare_input (build.rs lines 70-85): walk the extrinsic-pass
child entries, chaining each with the removed digest-pass entry of the same ChildIndex,
then emit every remaining digest-pass entry chained after an empty iterator. -/
def mergeChildIters : List (ChildIndex × List InputPair) →
    List (ChildIndex × List InputPair) → List (ChildIndex × List InputPair)
  | [], dig => dig
  | e :: rest, dig =>
    (e.1, e.2 ++ (lookupChild e.1 dig).getD []) :: mergeChildIters rest (removeChild e.1 dig)

/-- Embedding of prepare_input (build.rs lines 40-92): run the extrinsic pass for the
pending block parent.number + 1, run the digest pass, chain top iterators and merge the
per-child iterators. -/
def prepare_input (backend : BackendModel) (S : StorageModel)
    (config : ConfigurationRange) (changes : OverlayedChanges)
    (parent : AnchorBlockId) :
    BuildResult (List InputPair × List (ChildIndex × List InputPair) × List Nat) :=
  let number := parent.number + 1
  match prepare_extrinsics_input backend number changes with
  | .error e => .err e
  | .ok (extrinsics_input, children_extrinsics_input) =>
    match prepare_digest_input S config number with
    | .err e => .err e
    | .panicked => .panicked
    | .ok (digest_input, children_digest_input, digest_input_blocks) =>
      .ok (extrinsics_input ++ digest_input,
           mergeChildIters children_extrinsics_input children_digest_input,
           digest_input_blocks)

/-- Half-open index range, embedding Rust's Range of usize. -/
structure IdxRange where
  start : Nat
  stop : Nat
deriving DecidableEq, Repr

/-- Modelled from the spec: split_range of the RPC state layer (state_full.rs is not in
src/, only its tests). Per spec 6, split None or Some 0 gives (0..total, None);
0 < split < total gives (0..split, Some(split..total)); split at least total gives
(0..total, None). This model satisfies every case of the should_split_ranges test. -/
def split_range (total : Nat) (split : Option Nat) : IdxRange × Option IdxRange :=
  match split with
  | none => (⟨0, total⟩, none)
  | some s =>
    if s = 0 ∨ total ≤ s then (⟨0, total⟩, none)
    else (⟨0, s⟩, some ⟨s, total⟩)

/-- The InvalidBlockRange error of the RPC state layer: rendered from and to endpoints
plus a details string. -/
structure InvalidBlockRange where
  from_block : String
  to_block : String
  details : String
deriving DecidableEq, Repr

/-- Modelled from the spec: the endpoint validation of query_storage (state_full.rs is
not in src/, only its tests). Block hashes are opaque Nat ids; headerNumber is the
header database lookup and bestBlock the current best hash, used when to is absent.
Both endpoints must be known and from.number < to.number. The from endpoint is checked
before the to endpoint, matching the should_query_storage expectations; an unknown
endpoint renders both fields as bare hashes, a known inverted range renders them as
number (hash). -/
def query_storage_validate (headerNumber : Nat → Option Nat) (bestBlock : Nat)
    (fromHash : Nat) (toHash? : Option Nat) : Except InvalidBlockRange (Nat × Nat) :=
  let toHash := toHash?.getD bestBlock
  match headerNumber fromHash with
  | none => .error
      { from_block := toString fromHash,
        to_block := toString toHash,
        details := "UnknownBlock: header not found in db: " ++ toString fromHash }
  | some fromNumber =>
    match headerNumber toHash with
    | none => .error
        { from_block := toString fromHash,
          to_block := toString toHash,
          details := "UnknownBlock: header not found in db: " ++ toString toHash }
    | some toNumber =>
      if toNumber ≤ fromNumber then .error
        { from_block := toString fromNumber ++ " (" ++ toString fromHash ++ ")",
          to_block := toString toNumber ++ " (" ++ toString toHash ++ ")",
          details := "from number >= to number" }
      else .ok (fromNumber, toNumber)

/-- C10: split_range with None or Some 0 returns (0..total, None); with 0 < split <
total it returns (0..split, Some(split..total)), two contiguous non-empty ranges
covering 0..total; and with split at least total it returns (0..total, None). -/
theorem C10_split_range (total s t : Nat) (h0 : 0 < s) (hst : s < total)
    (ht : total ≤ t) :
    split_range total none = (⟨0, total⟩, none) ∧
    split_range total (some 0) = (⟨0, total⟩, none) ∧
    split_range total (some s) = (⟨0, s⟩, some ⟨s, total⟩) ∧
    (split_range total (some s)).1.start = 0 ∧
    (split_range total (some s)).1.start < (split_range total (some s)).1.stop ∧
    (match (split_range total (some s)).2 with
      | some r => (split_range total (some s)).1.stop = r.start ∧ r.start < r.stop ∧
          r.stop = total
      | none => False) ∧
    (∀ i, i < total ↔
      ((split_range total (some s)).1.start ≤ i ∧ i < (split_range total (some s)).1.stop) ∨
      (match (split_range total (some s)).2 with
        | some r => r.start ≤ i ∧ i < r.stop
        | none => False)) ∧
    split_range total (some t) = (⟨0, total⟩, none) := by
  have hs0 : ¬(s = 0 ∨ total ≤ s) := by omega
  have ht0 : t = 0 ∨ total ≤ t := Or.inr ht
  refine ⟨rfl, by simp [split_range], by simp [split_range, hs0], ?_, ?_, ?_, ?_, ?_⟩
  · simp [split_range, hs0]
  · simp [split_range, hs0]; omega
  · simp [split_range, hs0]; omega
  · intro i; simp [split_range, hs0]; omega
  · simp [split_range, ht0]

/-- Witness for C10 at total 100, split 50 (and 120 for the saturated case). -/
theorem C10_split_range_witness :
    (0 < 50 ∧ 50 < 100 ∧ 100 ≤ 120) ∧
    (split_range 100 none = (⟨0, 100⟩, none) ∧
     split_range 100 (some 0) = (⟨0, 100⟩, none) ∧
     split_range 100 (some 50) = (⟨0, 50⟩, some ⟨50, 100⟩) ∧
     (split_range 100 (some 50)).1.start = 0 ∧
     (split_range 100 (some 50)).1.start < (split_range 100 (some 50)).1.stop ∧
     (match (split_range 100 (some 50)).2 with
       | some r => (split_range 100 (some 50)).1.stop = r.start ∧ r.start < r.stop ∧
           r.stop = 100
       | none => False) ∧
     (∀ i, i < 100 ↔
       ((split_range 100 (some 50)).1.start ≤ i ∧ i < (split_range 100 (some 50)).1.stop) ∨
       (match (split_range 100 (some 50)).2 with
         | some r => r.start ≤ i ∧ i < r.stop
         | none => False)) ∧
     split_range 100 (some 120) = (⟨0, 100⟩, none)) :=
  ⟨⟨by decide, by decide, by decide⟩,
   C10_split_range 100 50 120 (by decide) (by decide) (by decide)⟩

/-- C9: query_storage endpoint validation: with both endpoints known and from.number
at least to.number it fails with InvalidBlockRange whose details is exactly
"from number >= to number" and whose from/to fields render number (hash) of the
endpoints; with an unknown endpoint it fails with InvalidBlockRange whose details is
"UnknownBlock: header not found in db: " followed by the offending hash. -/
theorem C9_query_storage_validate (headerNumber : Nat → Option Nat)
    (best f fn tn : Nat) (t? : Option Nat) :
    (headerNumber f = some fn → headerNumber (t?.getD best) = some tn → tn ≤ fn →
      query_storage_validate headerNumber best f t? = .error
        { from_block := toString fn ++ " (" ++ toString f ++ ")",
          to_block := toString tn ++ " (" ++ toString (t?.getD best) ++ ")",
          details := "from number >= to number" }) ∧
    (headerNumber f = none →
      query_storage_validate headerNumber best f t? = .error
        { from_block := toString f,
          to_block := toString (t?.getD best),
          details := "UnknownBlock: header not found in db: " ++ toString f }) ∧
    (headerNumber f = some fn → headerNumber (t?.getD best) = none →
      query_storage_validate headerNumber best f t? = .error
        { from_block := toString f,
          to_block := toString (t?.getD best),
          details := "UnknownBlock: header not found in db: " ++
            toString (t?.getD best) }) := by
  refine ⟨?_, ?_, ?_⟩
  · intro hf hto hge
    simp [query_storage_validate, hf, hto, hge]
  · intro hf
    simp [query_storage_validate, hf]
  · intro hf hto
    simp [query_storage_validate, hf, hto]

/-- Concrete header database for the C9 witness: hash 10 is block 0 (genesis), hash 11
is block 1; every other hash is unknown. -/
def wHeaderDb : Nat → Option Nat :=
  fun h => if h = 10 then some 0 else if h = 11 then some 1 else none

/-- Witness for C9: the inverted range query (from hash 11 = block 1, to hash 10 =
block 0) and the unknown-endpoint queries on hash 99. -/
theorem C9_query_storage_validate_witness :
    (wHeaderDb 11 = some 1 ∧ ((some 10 : Option Nat).getD 11 = 10) ∧
      wHeaderDb 10 = some 0 ∧ (0 : Nat) ≤ 1 ∧ wHeaderDb 99 = none) ∧
    query_storage_validate wHeaderDb 11 11 (some 10) = .error
      { from_block := "1 (11)", to_block := "0 (10)",
        details := "from number >= to number" } ∧
    query_storage_validate wHeaderDb 11 99 (some 10) = .error
      { from_block := "99", to_block := "10",
        details := "UnknownBlock: header not found in db: 99" } ∧
    query_storage_validate wHeaderDb 11 11 (some 99) = .error
      { from_block := "11", to_block := "99",
        details := "UnknownBlock: header not found in db: 99" } := by
  refine ⟨⟨by decide, by decide, by decide, by decide, by decide⟩, ?_, ?_, ?_⟩
  · exact (C9_query_storage_validate wHeaderDb 11 11 1 0 (some 10)).1
      (by decide) (by decide) (by decide)
  · exact (C9_query_storage_validate wHeaderDb 11 99 1 0 (some 10)).2.1 (by decide)
  · exact (C9_query_storage_validate wHeaderDb 11 11 1 0 (some 99)).2.2
      (by decide) (by decide)

theorem mapLookup_of_mem_sorted {V : Type} {m : BMap V} {k : Bytes} {v : V}
    (hs : mapSorted m) (hmem : (k, v) ∈ m) : mapLookup k m = some v := by
  induction m with
  | nil => simp at hmem
  | cons p t ih =>
    obtain ⟨k', v'⟩ := p
    simp only [mapSorted, bkeys, List.map_cons, List.pairwise_cons] at hs
    rcases List.mem_cons.mp hmem with h | h
    · rw [show k = k' from congrArg Prod.fst h, show v = v' from congrArg Prod.snd h]
      simp [mapLookup]
    · have hkt : k ∈ List.map Prod.fst t := List.mem_map_of_mem Prod.fst h
      have hne : k ≠ k' := by
        intro he; subst he
        exact absurd (hs.1 k hkt) (by simp [bytesLt_irrefl])
      simp only [mapLookup, if_neg hne]
      exact ih hs.2 h

/-- The extrinsic-pass map invariant: every entry's stored ExtrinsicIndex repeats the
map key and carries the pending block number. -/
def extEntryOk (block : Nat) (e : Bytes × (ExtrinsicIndex × List Nat)) : Prop :=
  e.2.1.key = e.1 ∧ e.2.1.block = block

theorem extrinsics_step_cases (backend : BackendModel) (changes : OverlayedChanges)
    (block : Nat) (sk? : Option Bytes) (ci? : Option ChildInfo)
    (m m' : ExtMap) (kv : Bytes × OverlayedValue)
    (hok : extrinsics_step backend changes block sk? ci? m kv = .ok m') :
    m' = m ∨
    m' = mapInsertWith kv.1 (fun p => p)
      ({ block := block, key := kv.1 }, kv.2.extrinsics.getD []) m ∨
    m' = mapInsertWith kv.1
      (fun p => (p.1, List.mergeSort (p.2 ++ kv.2.extrinsics.getD [])
        (fun a b => decide (a ≤ b))))
      ({ block := block, key := kv.1 }, kv.2.extrinsics.getD []) m := by
  rcases hlk : mapLookup kv.1 m with _ | dl
  · rcases sk? with _ | sk
    · by_cases hfin : (!(((changes.storage kv.1).map Option.isSome).getD false)) = true
      · rcases hb : backend.exists_storage kv.1 with e | b
        · simp [extrinsics_step, hlk, hfin, hb] at hok
        · cases b
          · simp only [extrinsics_step, hlk, hfin, hb, if_pos] at hok
            simp at hok
            exact Or.inl hok.symm
          · simp only [extrinsics_step, hlk, hfin, hb, if_pos] at hok
            simp at hok
            exact Or.inr (Or.inl hok.symm)
      · simp only [extrinsics_step, hlk] at hok
        rw [if_neg hfin] at hok
        simp at hok
        exact Or.inr (Or.inl hok.symm)
    · by_cases hfin :
        (!(((changes.child_storage sk kv.1).map Option.isSome).getD false)) = true
      · rcases ci? with _ | ci
        · simp only [extrinsics_step, hlk, hfin, if_pos] at hok
          simp at hok
          exact Or.inr (Or.inl hok.symm)
        · rcases hb : backend.exists_child_storage sk ci kv.1 with e | b
          · simp [extrinsics_step, hlk, hfin, hb] at hok
          · cases b
            · simp only [extrinsics_step, hlk, hfin, hb, if_pos] at hok
              simp at hok
              exact Or.inl hok.symm
            · simp only [extrinsics_step, hlk, hfin, hb, if_pos] at hok
              simp at hok
              exact Or.inr (Or.inl hok.symm)
      · simp only [extrinsics_step, hlk] at hok
        rw [if_neg hfin] at hok
        simp at hok
        exact Or.inr (Or.inl hok.symm)
  · simp only [extrinsics_step, hlk] at hok
    simp at hok
    exact Or.inr (Or.inr hok.symm)

theorem extrinsics_step_sorted (backend : BackendModel) (changes : OverlayedChanges)
    (block : Nat) (sk? : Option Bytes) (ci? : Option ChildInfo)
    (m m' : ExtMap) (kv : Bytes × OverlayedValue)
    (hok : extrinsics_step backend changes block sk? ci? m kv = .ok m')
    (hs : mapSorted m) : mapSorted m' := by
  rcases extrinsics_step_cases backend changes block sk? ci? m m' kv hok with h | h | h <;>
    (subst h; first | exact hs | exact mapSorted_mapInsertWith _ _ _ _ hs)

theorem extrinsics_fold_sorted (backend : BackendModel) (changes : OverlayedChanges)
    (block : Nat) (sk? : Option Bytes) (ci? : Option ChildInfo) :
    ∀ (entries : List (Bytes × OverlayedValue)) (m m' : ExtMap),
    extrinsics_fold backend changes block sk? ci? m entries = .ok m' →
    mapSorted m → mapSorted m'
  | [], m, m', hok, hs => by
    simp only [extrinsics_fold] at hok; injection hok with h; exact h ▸ hs
  | kv :: rest, m, m', hok, hs => by
    simp only [extrinsics_fold] at hok
    rcases hstep : extrinsics_step backend changes block sk? ci? m kv with e | m1 <;>
      rw [hstep] at hok
    · exact absurd hok (by simp)
    · exact extrinsics_fold_sorted backend changes block sk? ci? rest m1 m' hok
        (extrinsics_step_sorted backend changes block sk? ci? m m1 kv hstep hs)

theorem pairwise_le_of_chain_lt {l : List Nat} (h : List.Chain' (· < ·) l) :
    List.Pairwise (· ≤ ·) l :=
  (List.chain'_iff_pairwise.mp h).imp Nat.le_of_lt

theorem pairwise_le_mergeSort (l : List Nat) :
    List.Pairwise (· ≤ ·) (List.mergeSort l (fun a b => decide (a ≤ b))) := by
  have h := @List.sorted_mergeSort Nat (fun a b => decide (a ≤ b))
    (fun a b c hab hbc => by
      simp only [decide_eq_true_eq] at hab hbc ⊢; omega)
    (fun a b => by
      simp only [Bool.or_eq_true, decide_eq_true_eq]; omega) l
  exact h.imp (fun hab => by simpa using hab)

theorem extrinsics_step_vals_sorted (backend : BackendModel)
    (changes : OverlayedChanges) (block : Nat) (sk? : Option Bytes)
    (ci? : Option ChildInfo) (m m' : ExtMap) (kv : Bytes × OverlayedValue)
    (hok : extrinsics_step backend changes block sk? ci? m kv = .ok m')
    (hkv : ∀ l, kv.2.extrinsics = some l → List.Chain' (· < ·) l)
    (hm : ∀ e ∈ m, List.Pairwise (· ≤ ·) e.2.2) :
    ∀ e ∈ m', List.Pairwise (· ≤ ·) e.2.2 := by
  have hd : List.Pairwise (· ≤ ·) (kv.2.extrinsics.getD []) := by
    rcases hx : kv.2.extrinsics with _ | l
    · simp
    · simpa using pairwise_le_of_chain_lt (hkv l hx)
  rcases extrinsics_step_cases backend changes block sk? ci? m m' kv hok with h | h | h
  · exact h ▸ hm
  · subst h
    exact mapInsertWith_forall
      (fun e : Bytes × (ExtrinsicIndex × List Nat) => List.Pairwise (· ≤ ·) e.2.2) _ _ _ _
      hm hd (fun v hv => hv)
  · subst h
    exact mapInsertWith_forall
      (fun e : Bytes × (ExtrinsicIndex × List Nat) => List.Pairwise (· ≤ ·) e.2.2) _ _ _ _
      hm hd (fun v _ => pairwise_le_mergeSort _)

theorem extrinsics_fold_vals_sorted (backend : BackendModel)
    (changes : OverlayedChanges) (block : Nat) (sk? : Option Bytes)
    (ci? : Option ChildInfo) :
    ∀ (entries : List (Bytes × OverlayedValue)) (m m' : ExtMap),
    extrinsics_fold backend changes block sk? ci? m entries = .ok m' →
    (∀ e ∈ entries, ∀ l, e.2.extrinsics = some l → List.Chain' (· < ·) l) →
    (∀ e ∈ m, List.Pairwise (· ≤ ·) e.2.2) →
    ∀ e ∈ m', List.Pairwise (· ≤ ·) e.2.2
  | [], m, m', hok, _, hm => by
    simp only [extrinsics_fold] at hok; injection hok with h; exact h ▸ hm
  | kv :: rest, m, m', hok, hent, hm => by
    simp only [extrinsics_fold] at hok
    rcases hstep : extrinsics_step backend changes block sk? ci? m kv with e | m1 <;>
      rw [hstep] at hok
    · exact absurd hok (by simp)
    · exact extrinsics_fold_vals_sorted backend changes block sk? ci? rest m1 m' hok
        (fun e he => hent e (List.mem_cons_of_mem _ he))
        (extrinsics_step_vals_sorted backend changes block sk? ci? m m1 kv hstep
          (hent kv (List.mem_cons_self _ _)) hm)

theorem extrinsics_step_keyfield (backend : BackendModel)
    (changes : OverlayedChanges) (block : Nat) (sk? : Option Bytes)
    (ci? : Option ChildInfo) (m m' : ExtMap) (kv : Bytes × OverlayedValue)
    (hok : extrinsics_step backend changes block sk? ci? m kv = .ok m')
    (hm : ∀ e ∈ m, extEntryOk block e) : ∀ e ∈ m', extEntryOk block e := by
  rcases extrinsics_step_cases backend changes block sk? ci? m m' kv hok with h | h | h
  · exact h ▸ hm
  · subst h
    exact mapInsertWith_forall (extEntryOk block) _ _ _ _ hm ⟨rfl, rfl⟩
      (fun v hv => hv)
  · subst h
    exact mapInsertWith_forall (extEntryOk block) _ _ _ _ hm ⟨rfl, rfl⟩
      (fun v hv => hv)

theorem extrinsics_fold_keyfield (backend : BackendModel)
    (changes : OverlayedChanges) (block : Nat) (sk? : Option Bytes)
    (ci? : Option ChildInfo) :
    ∀ (entries : List (Bytes × OverlayedValue)) (m m' : ExtMap),
    extrinsics_fold backend changes block sk? ci? m entries = .ok m' →
    (∀ e ∈ m, extEntryOk block e) → ∀ e ∈ m', extEntryOk block e
  | [], m, m', hok, hm => by
    simp only [extrinsics_fold] at hok; injection hok with h; exact h ▸ hm
  | kv :: rest, m, m', hok, hm => by
    simp only [extrinsics_fold] at hok
    rcases hstep : extrinsics_step backend changes block sk? ci? m kv with e | m1 <;>
      rw [hstep] at hok
    · exact absurd hok (by simp)
    · exact extrinsics_fold_keyfield backend changes block sk? ci? rest m1 m' hok
        (extrinsics_step_keyfield backend changes block sk? ci? m m1 kv hstep hm)

theorem extrinsics_step_lookup_ne (backend : BackendModel)
    (changes : OverlayedChanges) (block : Nat) (sk? : Option Bytes)
    (ci? : Option ChildInfo) (m m' : ExtMap) (kv : Bytes × OverlayedValue)
    (k : Bytes) (hne : k ≠ kv.1)
    (hok : extrinsics_step backend changes block sk? ci? m kv = .ok m') :
    mapLookup k m' = mapLookup k m := by
  rcases extrinsics_step_cases backend changes block sk? ci? m m' kv hok with h | h | h <;>
    subst h
  · rfl
  · exact mapLookup_mapInsertWith_ne _ _ _ _ _ hne
  · exact mapLookup_mapInsertWith_ne _ _ _ _ _ hne

theorem extrinsics_fold_lookup_stable (backend : BackendModel)
    (changes : OverlayedChanges) (block : Nat) (sk? : Option Bytes)
    (ci? : Option ChildInfo) (k : Bytes) :
    ∀ (entries : List (Bytes × OverlayedValue)) (m m' : ExtMap),
    (∀ e ∈ entries, e.1 ≠ k) →
    extrinsics_fold backend changes block sk? ci? m entries = .ok m' →
    mapLookup k m' = mapLookup k m
  | [], m, m', _, hok => by
    simp only [extrinsics_fold] at hok; injection hok with h; exact h ▸ rfl
  | kv :: rest, m, m', hne, hok => by
    simp only [extrinsics_fold] at hok
    rcases hstep : extrinsics_step backend changes block sk? ci? m kv with e | m1 <;>
      rw [hstep] at hok
    · exact absurd hok (by simp)
    · rw [extrinsics_fold_lookup_stable backend changes block sk? ci? k rest m1 m'
        (fun e he => hne e (List.mem_cons_of_mem _ he)) hok]
      exact extrinsics_step_lookup_ne backend changes block sk? ci? m m1 kv k
        (fun he => hne kv (List.mem_cons_self _ _) he.symm) hstep

theorem extrinsics_fold_single (backend : BackendModel) (changes : OverlayedChanges)
    (block : Nat) (sk? : Option Bytes) (ci? : Option ChildInfo) (k : Bytes) :
    ∀ (entries : List (Bytes × OverlayedValue)) (m m' : ExtMap),
    mapSorted m →
    (entries.filter (fun e => decide (e.1 = k))).length ≤ 1 →
    mapLookup k m = none →
    extrinsics_fold backend changes block sk? ci? m entries = .ok m' →
    ∀ dl, mapLookup k m' = some dl →
      ∃ e ∈ entries, e.1 = k ∧
        dl = ({ block := block, key := k }, e.2.extrinsics.getD [])
  | [], m, m', _, _, hnone, hok, dl, hdl => by
    simp only [extrinsics_fold] at hok
    injection hok with h; subst h
    rw [hnone] at hdl; exact absurd hdl (by simp)
  | kv :: rest, m, m', hs, hcnt, hnone, hok, dl, hdl => by
    obtain ⟨kk, vv⟩ := kv
    simp only [extrinsics_fold] at hok
    rcases hstep : extrinsics_step backend changes block sk? ci? m (kk, vv) with e | m1 <;>
      rw [hstep] at hok
    · exact absurd hok (by simp)
    · by_cases hk : kk = k
      · subst hk
        -- the single occurrence of the key: no further occurrences in rest
        have hrest : ∀ e ∈ rest, e.1 ≠ kk := by
          intro e he hek
          have hfe : e ∈ rest.filter (fun e => decide (e.1 = kk)) :=
            List.mem_filter.mpr ⟨he, by simp [hek]⟩
          have hpos : 0 < (rest.filter (fun e => decide (e.1 = kk))).length :=
            List.length_pos.mpr (by intro hnil; rw [hnil] at hfe; simp at hfe)
          rw [List.filter_cons, if_pos (by simp)] at hcnt
          simp only [List.length_cons] at hcnt
          omega
        have hstable := extrinsics_fold_lookup_stable backend changes block sk? ci? kk
          rest m1 m' hrest hok
        rcases extrinsics_step_cases backend changes block sk? ci? m m1 (kk, vv) hstep
          with h1 | h1 | h1
        · subst h1
          rw [hstable, hnone] at hdl
          exact absurd hdl (by simp)
        · subst h1
          rw [hstable, mapLookup_mapInsertWith_self kk _ _ m hs, hnone] at hdl
          injection hdl with h
          exact ⟨(kk, vv), List.mem_cons_self _ _, rfl, h.symm⟩
        · subst h1
          rw [hstable, mapLookup_mapInsertWith_self kk _ _ m hs, hnone] at hdl
          injection hdl with h
          exact ⟨(kk, vv), List.mem_cons_self _ _, rfl, h.symm⟩
      · have hnone1 : mapLookup k m1 = none := by
          rw [extrinsics_step_lookup_ne backend changes block sk? ci? m m1 (kk, vv) k
            (fun he => hk he.symm) hstep]
          exact hnone
        have hcnt1 : (rest.filter (fun e => decide (e.1 = k))).length ≤ 1 := by
          rw [List.filter_cons] at hcnt
          split at hcnt
          · simp only [List.length_cons] at hcnt; omega
          · exact hcnt
        rcases extrinsics_fold_single backend changes block sk? ci? k rest m1 m'
          (extrinsics_step_sorted backend changes block sk? ci? m m1 (kk, vv) hstep hs)
          hcnt1 hnone1 hok dl hdl with ⟨e, he, hek, hde⟩
        exact ⟨e, List.mem_cons_of_mem _ he, hek, hde⟩

/-- Backend for the C7 counterexample: every key exists in durable storage. -/
def cxBackend : BackendModel :=
  { exists_storage := fun _ => .ok true,
    exists_child_storage := fun _ _ _ => .ok true }

/-- Overlay for the C7 counterexample: key 100 is written by extrinsic 3 in the
committed set and again by extrinsic 3 in the prospective set. -/
def cxChanges : OverlayedChanges :=
  { prospective := { top := [([100], ⟨some [1], some [3]⟩)], children := [] },
    committed := { top := [([100], ⟨some [2], some [3]⟩)], children := [] },
    collect_extrinsics := true }

/-- C7 counterexample: with key 100 occurring in both change sets with the common
extrinsic index 3, the extrinsic pass emits the value list [3, 3], which is sorted but
not duplicate-free: the merge extends and sorts (sort_unstable) without deduplicating,
so the claim that every emitted ExtrinsicIndex value list has no duplicates is false. -/
theorem C7_counterexample :
    prepare_extrinsics_input_inner cxBackend 5 cxChanges none =
      .ok [InputPair.extrinsicIndex { block := 5, key := [100] } [3, 3]] ∧
    ¬ (∀ p ∈ [InputPair.extrinsicIndex { block := 5, key := [100] } [3, 3]],
        (InputPair.ival p).Nodup) := by
  constructor
  · have hci : (scope_maps cxChanges none).2.2 = none := rfl
    have hentries : scope_entries cxChanges none =
        [([100], ⟨some [2], some [3]⟩), ([100], ⟨some [1], some [3]⟩)] := rfl
    have h1 : extrinsics_step cxBackend cxChanges 5 none none []
        ([100], ⟨some [2], some [3]⟩) =
        .ok [([100], ({ block := 5, key := [100] }, [3]))] := by rfl
    have h2 : extrinsics_step cxBackend cxChanges 5 none none
        [([100], ({ block := 5, key := [100] }, [3]))]
        ([100], ⟨some [1], some [3]⟩) =
        .ok [([100], ({ block := 5, key := [100] }, [3, 3]))] := by
      have hms : List.mergeSort ([3, 3] : List Nat) (fun a b => decide (a ≤ b)) =
          [3, 3] := List.mergeSort_of_sorted (by decide)
      simp [extrinsics_step, mapLookup, mapInsertWith, hms, bytesLt_irrefl]
    simp only [prepare_extrinsics_input_inner, hci, hentries, extrinsics_fold, h1, h2]
    rfl
  · intro h
    have := h (InputPair.extrinsicIndex { block := 5, key := [100] } [3, 3])
      (List.mem_cons_self _ _)
    simp [InputPair.ival] at this

/-- C7 as amended: every ExtrinsicIndex value list emitted by the extrinsic-index pass
is sorted ascending (given set-like overlay extrinsics), but merging is by extend plus
sort_unstable without deduplication, so duplicate-freedom holds only for keys with at
most one extrinsics-carrying occurrence across the committed and prospective sets; a
key occurring in both sets with a common extrinsic index gets that index twice. -/
theorem C7_extrinsic_lists_sorted (backend : BackendModel)
    (changes : OverlayedChanges) (block : Nat) (storage_key : Option Bytes)
    (pairs : List InputPair)
    (hwf : ∀ e ∈ scope_entries changes storage_key,
      ∀ l, e.2.extrinsics = some l → List.Chain' (· < ·) l)
    (hok : prepare_extrinsics_input_inner backend block changes storage_key =
      .ok pairs) :
    (∀ p ∈ pairs, List.Pairwise (· ≤ ·) p.ival) ∧
    (∀ p ∈ pairs,
      ((scope_entries changes storage_key).filter
        (fun e => decide (e.1 = p.ikey))).length ≤ 1 →
      p.ival.Nodup) := by
  simp only [prepare_extrinsics_input_inner] at hok
  rcases hfold : extrinsics_fold backend changes block storage_key
      (scope_maps changes storage_key).2.2 [] (scope_entries changes storage_key) with
    e | mfin <;> rw [hfold] at hok
  · exact absurd hok (by simp)
  · injection hok with h; subst h
    constructor
    · intro p hp
      rcases List.mem_map.mp hp with ⟨me, hme, hpe⟩
      have := extrinsics_fold_vals_sorted backend changes block storage_key
        (scope_maps changes storage_key).2.2 (scope_entries changes storage_key)
        [] mfin hfold hwf (by simp) me hme
      rw [← hpe]; simpa [InputPair.ival] using this
    · intro p hp hcnt
      rcases List.mem_map.mp hp with ⟨me, hme, hpe⟩
      have hsorted : mapSorted mfin :=
        extrinsics_fold_sorted backend changes block storage_key
          (scope_maps changes storage_key).2.2 (scope_entries changes storage_key)
          [] mfin hfold (by simp [mapSorted, bkeys])
      have hkf := extrinsics_fold_keyfield backend changes block storage_key
        (scope_maps changes storage_key).2.2 (scope_entries changes storage_key)
        [] mfin hfold (by simp) me hme
      have hikey : p.ikey = me.1 := by
        rw [← hpe]; simpa [InputPair.ikey] using hkf.1
      have hlk : mapLookup me.1 mfin = some me.2 := by
        have : (me.1, me.2) ∈ mfin := by simpa using hme
        exact mapLookup_of_mem_sorted hsorted this
      rcases extrinsics_fold_single backend changes block storage_key
          (scope_maps changes storage_key).2.2 me.1
          (scope_entries changes storage_key) [] mfin (by simp [mapSorted, bkeys])
          (by rw [← hikey]; exact hcnt) (by simp [mapLookup]) hfold me.2 hlk with
        ⟨en, hen, henk, hend⟩
      have hchain : List.Chain' (· < ·) (en.2.extrinsics.getD []) := by
        rcases hx : en.2.extrinsics with _ | l
        · simp
        · simpa using hwf en hen l hx
      have : me.2.2 = en.2.extrinsics.getD [] := by rw [hend]
      rw [← hpe]
      simpa [InputPair.ival, this] using
        ((List.chain'_iff_pairwise.mp hchain).imp Nat.ne_of_lt)

/-- Backend and overlay for the C7 amended witness: a single-occurrence key 101 with
extrinsics set 2, 5. -/
def w7Changes : OverlayedChanges :=
  { prospective := { top := [([101], ⟨some [1], some [2, 5]⟩)], children := [] },
    committed := { top := [], children := [] },
    collect_extrinsics := true }

/-- Witness for the amended C7 at a concrete single-occurrence overlay. -/
theorem C7_extrinsic_lists_sorted_witness :
    (∀ e ∈ scope_entries w7Changes none,
      ∀ l, e.2.extrinsics = some l → List.Chain' (· < ·) l) ∧
    prepare_extrinsics_input_inner cxBackend 7 w7Changes none =
      .ok [InputPair.extrinsicIndex { block := 7, key := [101] } [2, 5]] ∧
    ((∀ p ∈ [InputPair.extrinsicIndex { block := 7, key := [101] } [2, 5]],
        List.Pairwise (· ≤ ·) p.ival) ∧
     (∀ p ∈ [InputPair.extrinsicIndex { block := 7, key := [101] } [2, 5]],
        ((scope_entries w7Changes none).filter
          (fun e => decide (e.1 = p.ikey))).length ≤ 1 →
        p.ival.Nodup)) := by
  have hwf : ∀ e ∈ scope_entries w7Changes none, ∀ l, e.2.extrinsics = some l →
      List.Chain' (· < ·) l := by
    intro e he l hl
    rw [show scope_entries w7Changes none =
      [([101], ⟨some [1], some [2, 5]⟩)] from rfl] at he
    simp only [List.mem_singleton] at he
    subst he
    injection hl with h
    subst h
    exact List.chain'_cons.mpr ⟨by omega, List.chain'_singleton _⟩
  have hok : prepare_extrinsics_input_inner cxBackend 7 w7Changes none =
      .ok [InputPair.extrinsicIndex { block := 7, key := [101] } [2, 5]] := by rfl
  exact ⟨hwf, hok, C7_extrinsic_lists_sorted cxBackend w7Changes 7 none _ hwf hok⟩

theorem mapLookup_isSome_of_mem {V : Type} (k : Bytes) (m : BMap V)
    (h : k ∈ bkeys m) : ∃ v, mapLookup k m = some v := by
  induction m with
  | nil => simp [bkeys] at h
  | cons p t ih =>
    obtain ⟨k', v'⟩ := p
    by_cases hk : k = k'
    · exact ⟨v', by simp [mapLookup, hk]⟩
    · simp only [bkeys, List.map_cons, List.mem_cons] at h
      rcases h with h | h
      · exact absurd h hk
      · rcases ih h with ⟨v, hv⟩
        exact ⟨v, by simp [mapLookup, hk, hv]⟩

theorem extrinsics_fold_not_mem_top (backend : BackendModel)
    (changes : OverlayedChanges) (block : Nat) (ci? : Option ChildInfo) (k : Bytes)
    (hstor : ((changes.storage k).map Option.isSome).getD false = false)
    (hbk : backend.exists_storage k = .ok false) :
    ∀ (entries : List (Bytes × OverlayedValue)) (m m' : ExtMap),
    k ∉ bkeys m →
    extrinsics_fold backend changes block none ci? m entries = .ok m' →
    k ∉ bkeys m'
  | [], m, m', hmem, hok => by
    simp only [extrinsics_fold] at hok; injection hok with h; exact h ▸ hmem
  | kv :: rest, m, m', hmem, hok => by
    obtain ⟨kk, vv⟩ := kv
    simp only [extrinsics_fold] at hok
    rcases hstep : extrinsics_step backend changes block none ci? m (kk, vv) with e | m1 <;>
      rw [hstep] at hok
    · exact absurd hok (by simp)
    · have hmem1 : k ∉ bkeys m1 := by
        by_cases hkk : kk = k
        · subst hkk
          have hlk : mapLookup kk m = none := mapLookup_eq_none_of_not_mem kk m hmem
          simp only [extrinsics_step, hlk] at hstep
          rw [if_pos (by simp [hstor]), hbk] at hstep
          injection hstep with h
          exact h ▸ hmem
        · rcases extrinsics_step_cases backend changes block none ci? m m1 (kk, vv)
            hstep with h | h | h <;> subst h
          · exact hmem
          · intro hc
            rcases (bkeys_mapInsertWith kk _ _ m k).mp hc with h | h
            · exact hkk h.symm
            · exact hmem h
          · intro hc
            rcases (bkeys_mapInsertWith kk _ _ m k).mp hc with h | h
            · exact hkk h.symm
            · exact hmem h
      exact extrinsics_fold_not_mem_top backend changes block ci? k hstor hbk rest m1 m' hmem1 hok

theorem extrinsics_fold_not_mem_child (backend : BackendModel)
    (changes : OverlayedChanges) (block : Nat) (sk : Bytes) (ci : ChildInfo) (k : Bytes)
    (hstor : ((changes.child_storage sk k).map Option.isSome).getD false = false)
    (hbk : backend.exists_child_storage sk ci k = .ok false) :
    ∀ (entries : List (Bytes × OverlayedValue)) (m m' : ExtMap),
    k ∉ bkeys m →
    extrinsics_fold backend changes block (some sk) (some ci) m entries = .ok m' →
    k ∉ bkeys m'
  | [], m, m', hmem, hok => by
    simp only [extrinsics_fold] at hok; injection hok with h; exact h ▸ hmem
  | kv :: rest, m, m', hmem, hok => by
    obtain ⟨kk, vv⟩ := kv
    simp only [extrinsics_fold] at hok
    rcases hstep : extrinsics_step backend changes block (some sk) (some ci) m (kk, vv)
      with e | m1 <;> rw [hstep] at hok
    · exact absurd hok (by simp)
    · have hmem1 : k ∉ bkeys m1 := by
        by_cases hkk : kk = k
        · subst hkk
          have hlk : mapLookup kk m = none := mapLookup_eq_none_of_not_mem kk m hmem
          simp only [extrinsics_step, hlk] at hstep
          rw [if_pos (by simp [hstor]), hbk] at hstep
          injection hstep with h
          exact h ▸ hmem
        · rcases extrinsics_step_cases backend changes block (some sk) (some ci) m m1
            (kk, vv) hstep with h | h | h <;> subst h
          · exact hmem
          · intro hc
            rcases (bkeys_mapInsertWith kk _ _ m k).mp hc with h | h
            · exact hkk h.symm
            · exact hmem h
          · intro hc
            rcases (bkeys_mapInsertWith kk _ _ m k).mp hc with h | h
            · exact hkk h.symm
            · exact hmem h
      exact extrinsics_fold_not_mem_child backend changes block sk ci k hstor hbk rest m1
        m' hmem1 hok

theorem mem_setInsert (k a : Bytes) (s : List Bytes) :
    a ∈ setInsert k s ↔ a = k ∨ a ∈ s := by
  induction s with
  | nil => simp [setInsert]
  | cons k' t ih =>
    simp only [setInsert]
    split
    · simp
    · split
      · rename_i hlt heq; subst heq; simp
      · simp only [List.mem_cons]
        rw [ih]
        tauto

theorem mem_children_keys (changes : OverlayedChanges) (a : Bytes) :
    a ∈ children_keys_of changes ↔
      a ∈ bkeys (changes.prospective.children ++ changes.committed.children) := by
  unfold children_keys_of
  generalize changes.prospective.children ++ changes.committed.children = l
  have : ∀ (l : BMap (BMap OverlayedValue × ChildInfo)) (s0 : List Bytes),
      a ∈ l.foldl (fun s e => setInsert e.1 s) s0 ↔ a ∈ s0 ∨ a ∈ bkeys l := by
    intro l
    induction l with
    | nil => intro s0; simp [bkeys]
    | cons e t ih =>
      intro s0
      simp only [List.foldl_cons, ih, mem_setInsert, bkeys, List.map_cons,
        List.mem_cons]
      tauto
  rw [this l []]
  simp

theorem child_info_of_mem_children_keys (changes : OverlayedChanges) (sk : Bytes)
    (h : sk ∈ children_keys_of changes) :
    ∃ ci, changes.child_info sk = some ci := by
  rw [mem_children_keys] at h
  unfold OverlayedChanges.child_info
  rcases hp : mapLookup sk changes.prospective.children with _ | m
  · have hsk : sk ∈ bkeys changes.committed.children := by
      rcases (by simpa [bkeys] using h :
        sk ∈ bkeys changes.prospective.children ∨
        sk ∈ bkeys changes.committed.children) with h1 | h1
      · rcases mapLookup_isSome_of_mem sk _ h1 with ⟨v, hv⟩
        rw [hp] at hv; exact absurd hv (by simp)
      · exact h1
    rcases mapLookup_isSome_of_mem sk _ hsk with ⟨v, hv⟩
    exact ⟨v.2, by simp [hv]⟩
  · exact ⟨m.2, rfl⟩

theorem prepare_children_extrinsics_mem (backend : BackendModel) (block : Nat)
    (changes : OverlayedChanges) :
    ∀ (sks : List Bytes) (l : List (ChildIndex × List InputPair)),
    prepare_children_extrinsics backend block changes sks = .ok l →
    ∀ ci pairs, (ci, pairs) ∈ l →
      ci.block = block ∧ ci.storage_key ∈ sks ∧
      prepare_extrinsics_input_inner backend block changes (some ci.storage_key) =
        .ok pairs
  | [], l, hok, ci, pairs, hmem => by
    simp only [prepare_children_extrinsics] at hok
    injection hok with h; subst h; simp at hmem
  | sk :: rest, l, hok, ci, pairs, hmem => by
    simp only [prepare_children_extrinsics] at hok
    rcases hinner : prepare_extrinsics_input_inner backend block changes (some sk) with
      e | ps <;> rw [hinner] at hok
    · exact absurd hok (by simp)
    · rcases hrest : prepare_children_extrinsics backend block changes rest with
        e | others <;> rw [hrest] at hok
      · exact absurd hok (by simp)
      · injection hok with h; subst h
        rcases List.mem_cons.mp hmem with h | h
        · have hci : ci = { block := block, storage_key := sk } := congrArg Prod.fst h
          have hps : pairs = ps := congrArg Prod.snd h
          subst hci; subst hps
          exact ⟨rfl, by simp, hinner⟩
        · rcases prepare_children_extrinsics_mem backend block changes rest others
            hrest ci pairs h with ⟨h1, h2, h3⟩
          exact ⟨h1, List.mem_cons_of_mem _ h2, h3⟩

theorem prepare_extrinsics_inner_not_mem (backend : BackendModel)
    (changes : OverlayedChanges) (block : Nat) (storage_key : Option Bytes) (k : Bytes)
    (pairs : List InputPair)
    (hok : prepare_extrinsics_input_inner backend block changes storage_key = .ok pairs)
    (hdrop : match storage_key with
      | none => ((changes.storage k).map Option.isSome).getD false = false ∧
          backend.exists_storage k = .ok false
      | some sk => ((changes.child_storage sk k).map Option.isSome).getD false = false ∧
          ∀ ci, changes.child_info sk = some ci →
            backend.exists_child_storage sk ci k = .ok false)
    (hinfo : match storage_key with
      | none => True
      | some sk => (changes.child_info sk).isSome) :
    ∀ p ∈ pairs, p.ikey ≠ k := by
  simp only [prepare_extrinsics_input_inner] at hok
  rcases hfold : extrinsics_fold backend changes block storage_key
      (scope_maps changes storage_key).2.2 [] (scope_entries changes storage_key) with
    e | mfin <;> rw [hfold] at hok
  · exact absurd hok (by simp)
  · injection hok with h; subst h
    have hkf := extrinsics_fold_keyfield backend changes block storage_key
      (scope_maps changes storage_key).2.2 (scope_entries changes storage_key)
      [] mfin hfold (by simp)
    have hnm : k ∉ bkeys mfin := by
      rcases storage_key with _ | sk
      · have hci : (scope_maps changes none).2.2 = none := rfl
        rw [hci] at hfold
        exact extrinsics_fold_not_mem_top backend changes block none k
          hdrop.1 hdrop.2 _ [] mfin (by simp [bkeys]) hfold
      · rcases Option.isSome_iff_exists.mp hinfo with ⟨ci, hci⟩
        have hsm : (scope_maps changes (some sk)).2.2 = some ci := by
          simp [scope_maps, hci]
        rw [hsm] at hfold
        exact extrinsics_fold_not_mem_child backend changes block sk ci k
          hdrop.1 (hdrop.2 ci hci) _ [] mfin (by simp [bkeys]) hfold
    intro p hp hpk
    rcases List.mem_map.mp hp with ⟨me, hme, hpe⟩
    have hkey : me.2.1.key = me.1 := (hkf me hme).1
    have : me.1 = k := by
      rw [← hpk, ← hpe]
      simp [InputPair.ikey, hkey]
    exact hnm (this ▸ List.mem_map_of_mem Prod.fst hme)

/-- C2: for every scope (top or any child) and every key whose merged-overlay final
value is absent or a deletion and for which the backend reports no prior existence, the
extrinsic-index pass emits no ExtrinsicIndex pair for that key, however many extrinsics
wrote it transiently in either change set. -/
theorem C2_temporary_write_suppression (backend : BackendModel)
    (changes : OverlayedChanges) (block : Nat) (k : Bytes)
    (top : List InputPair) (children : List (ChildIndex × List InputPair))
    (hok : prepare_extrinsics_input backend block changes = .ok (top, children)) :
    (((changes.storage k).map Option.isSome).getD false = false →
      backend.exists_storage k = .ok false →
      ∀ p ∈ top, p.ikey ≠ k) ∧
    (∀ ci pairs, (ci, pairs) ∈ children →
      ((changes.child_storage ci.storage_key k).map Option.isSome).getD false = false →
      (∀ info, changes.child_info ci.storage_key = some info →
        backend.exists_child_storage ci.storage_key info k = .ok false) →
      ∀ p ∈ pairs, p.ikey ≠ k) := by
  simp only [prepare_extrinsics_input] at hok
  rcases hch : prepare_children_extrinsics backend block changes
      (children_keys_of changes) with e | children_result <;> rw [hch] at hok
  · exact absurd hok (by simp)
  · rcases htop : prepare_extrinsics_input_inner backend block changes none with
      e | tp <;> rw [htop] at hok
    · exact absurd hok (by simp)
    · injection hok with h
      have htp : tp = top := congrArg Prod.fst h
      have hcr : children_result = children := congrArg Prod.snd h
      subst htp; subst hcr
      constructor
      · intro h1 h2
        exact prepare_extrinsics_inner_not_mem backend changes block none k tp htop
          ⟨h1, h2⟩ trivial
      · intro ci pairs hmem h1 h2
        rcases prepare_children_extrinsics_mem backend block changes
          (children_keys_of changes) children_result hch ci pairs hmem with
          ⟨_, hsk, hinner⟩
        rcases child_info_of_mem_children_keys changes ci.storage_key hsk with ⟨info, hi⟩
        exact prepare_extrinsics_inner_not_mem backend changes block
          (some ci.storage_key) k pairs hinner ⟨h1, h2⟩ (by simp [hi])

/-- One digest-map entry invariant: the DigestIndex repeats the map key and the pending
block; the value list is a nonempty strictly ascending block list bounded by B. -/
def digEntryGood (B block : Nat) (e : Bytes × (DigestIndex × List Nat)) : Prop :=
  e.2.1.key = e.1 ∧ e.2.1.block = block ∧ e.2.2 ≠ [] ∧
  List.Chain' (· < ·) e.2.2 ∧ ∀ x ∈ e.2.2, x ≤ B

def digMapGood (B block : Nat) (m : DigMap) : Prop :=
  mapSorted m ∧ ∀ e ∈ m, digEntryGood B block e

def childMapGood (B block : Nat) (cm : ChildDigMap) : Prop :=
  mapSorted cm ∧ ∀ e ∈ cm, digMapGood B block e.2

theorem digEntryGood_mono {B B' block : Nat} (h : B ≤ B')
    {e : Bytes × (DigestIndex × List Nat)} (he : digEntryGood B block e) :
    digEntryGood B' block e :=
  ⟨he.1, he.2.1, he.2.2.1, he.2.2.2.1, fun x hx => Nat.le_trans (he.2.2.2.2 x hx) h⟩

theorem digMapGood_mono {B B' block : Nat} (h : B ≤ B') {m : DigMap}
    (hm : digMapGood B block m) : digMapGood B' block m :=
  ⟨hm.1, fun e he => digEntryGood_mono h (hm.2 e he)⟩

theorem childMapGood_mono {B B' block : Nat} (h : B ≤ B') {cm : ChildDigMap}
    (hm : childMapGood B block cm) : childMapGood B' block cm :=
  ⟨hm.1, fun e he => digMapGood_mono h (hm.2 e he)⟩

theorem digMapGood_nil (B block : Nat) : digMapGood B block [] :=
  ⟨by simp [mapSorted, bkeys], by simp⟩

theorem childMapGood_nil (B block : Nat) : childMapGood B block [] :=
  ⟨by simp [mapSorted, bkeys], by simp⟩

theorem insert_to_map_good {b block : Nat} {m : DigMap} (k : Bytes)
    (hm : digMapGood b block m) : digMapGood b block (insert_to_map block b m k) := by
  refine ⟨mapSorted_mapInsertWith _ _ _ _ hm.1, ?_⟩
  apply mapInsertWith_forall (digEntryGood b block) k _ _ m hm.2
  · exact ⟨rfl, rfl, by simp, by simp, by simp⟩
  · intro v hv
    by_cases hlast : v.2.getLast? = some b
    · simp only [insert_to_map, hlast, if_pos]
      exact hv
    · simp only [insert_to_map, hlast, if_neg, ite_false]
      rcases hv with ⟨h1, h2, h3, h4, h5⟩
      refine ⟨h1, h2, by simp, ?_, ?_⟩
      · rw [List.chain'_append]
        refine ⟨h4, List.chain'_singleton b, ?_⟩
        intro x hx y hy
        simp only [List.head?_cons, Option.mem_def, Option.some.injEq] at hy
        subst hy
        have hxm : x ∈ v.2 := List.mem_of_mem_getLast? hx
        have hxb : x ≤ b := h5 x hxm
        have hxnb : x ≠ b := by
          intro he; subst he
          exact hlast hx
        omega
      · intro x hx
        rcases List.mem_append.mp hx with hx | hx
        · exact h5 x hx
        · simp only [List.mem_singleton] at hx; omega

theorem scanKeys_good {b block : Nat} :
    ∀ (keys : List (Option Bytes)) (m : DigMap), digMapGood b block m →
      digMapGood b block (scanKeys block b keys m)
  | [], m, hm => hm
  | k? :: rest, m, hm => by
    simp only [scanKeys, List.foldl_cons]
    rcases k? with _ | k
    · exact scanKeys_good rest m hm
    · exact scanKeys_good rest _ (insert_to_map_good k hm)

theorem foldl_insert_to_map_good {b block : Nat} :
    ∀ (keys : List Bytes) (m : DigMap), digMapGood b block m →
      digMapGood b block (keys.foldl (insert_to_map block b) m)
  | [], m, hm => hm
  | k :: rest, m, hm => by
    simp only [List.foldl_cons]
    exact foldl_insert_to_map_good rest _ (insert_to_map_good k hm)

theorem child_insert_good {b block : Nat} {cm : ChildDigMap} (sk : Bytes)
    (f : DigMap → DigMap) (d : DigMap)
    (hf : ∀ sub, digMapGood b block sub → digMapGood b block (f sub))
    (hd : digMapGood b block d)
    (hcm : childMapGood b block cm) :
    childMapGood b block (mapInsertWith sk f d cm) := by
  refine ⟨mapSorted_mapInsertWith _ _ _ _ hcm.1, ?_⟩
  apply mapInsertWith_forall
    (fun e : Bytes × DigMap => digMapGood b block e.2) sk f d cm hcm.2 hd
  intro v hv
  exact hf v hv

theorem mergeCached_good {b block : Nat} :
    ∀ (ck : List (Option Bytes × List Bytes)) (maps : DigMap × ChildDigMap),
    digMapGood b block maps.1 → childMapGood b block maps.2 →
    digMapGood b block (mergeCached block b ck maps).1 ∧
      childMapGood b block (mergeCached block b ck maps).2
  | [], maps, hm, hcm => ⟨hm, hcm⟩
  | e :: rest, maps, hm, hcm => by
    simp only [mergeCached, List.foldl_cons]
    rcases e with ⟨skOpt, keys⟩
    rcases skOpt with _ | sk
    · exact mergeCached_good rest _ (foldl_insert_to_map_good keys maps.1 hm) hcm
    · exact mergeCached_good rest _ hm
        (child_insert_good sk _ _ (fun sub hsub => foldl_insert_to_map_good keys sub hsub)
          (foldl_insert_to_map_good keys [] (digMapGood_nil b block)) hcm)

theorem foldl_children_scan_good {b block : Nat} (S : StorageModel) :
    ∀ (roots : List (Bytes × Bytes)) (cm : ChildDigMap), childMapGood b block cm →
    childMapGood b block (roots.foldl (fun cm e =>
      mapInsertWith e.1
        (fun sub => scanKeys block b (S.trie e.2).digestKeys
          (scanKeys block b (S.trie e.2).extrinsicKeys sub))
        (scanKeys block b (S.trie e.2).digestKeys
          (scanKeys block b (S.trie e.2).extrinsicKeys []))
        cm) cm)
  | [], cm, hcm => hcm
  | r :: rest, cm, hcm => by
    simp only [List.foldl_cons]
    exact foldl_children_scan_good S rest _
      (child_insert_good r.1 _ _
        (fun sub hsub => scanKeys_good _ _ (scanKeys_good _ _ hsub))
        (scanKeys_good _ _ (scanKeys_good _ _ (digMapGood_nil b block))) hcm)

theorem digest_input_step_good {B b block : Nat} (S : StorageModel)
    (maps maps' : DigMap × ChildDigMap)
    (hm : digMapGood B block maps.1) (hcm : childMapGood B block maps.2)
    (hBb : B ≤ b)
    (hok : digest_input_step S block maps b = .ok maps') :
    digMapGood b block maps'.1 ∧ childMapGood b block maps'.2 := by
  have hm' : digMapGood b block maps.1 := digMapGood_mono hBb hm
  have hcm' : childMapGood b block maps.2 := childMapGood_mono hBb hcm
  rcases hroot : S.root b with e | r
  · simp only [digest_input_step, hroot] at hok
    exact absurd hok (by simp)
  · rcases r with _ | tr
    · simp only [digest_input_step, hroot] at hok
      exact absurd hok (by simp)
    · rcases hck : S.cachedChangedKeys tr with _ | ck
      · rcases hcr : collect_children_roots S.hashLen (S.trie tr).childEntries [] with
          roots | e | _
        · simp only [digest_input_step, hroot, hck, hcr] at hok
          injection hok with h
          subst h
          exact ⟨scanKeys_good _ _ (scanKeys_good _ _ hm'),
            foldl_children_scan_good S roots maps.2 hcm'⟩
        · simp only [digest_input_step, hroot, hck, hcr] at hok
          exact absurd hok (by simp)
        · simp only [digest_input_step, hroot, hck, hcr] at hok
          exact absurd hok (by simp)
      · simp only [digest_input_step, hroot, hck] at hok
        injection hok with h
        subst h
        exact mergeCached_good ck maps hm' hcm'

theorem digest_fold_good {block : Nat} (S : StorageModel) :
    ∀ (covered : List Nat) (maps maps' : DigMap × ChildDigMap) (B : Nat),
    List.Pairwise (· ≤ ·) covered → (∀ c ∈ covered, B ≤ c) →
    digMapGood B block maps.1 → childMapGood B block maps.2 →
    digest_fold S block maps covered = .ok maps' →
    ∃ B', digMapGood B' block maps'.1 ∧ childMapGood B' block maps'.2
  | [], maps, maps', B, _, _, hm, hcm, hok => by
    simp only [digest_fold] at hok
    injection hok with h
    exact ⟨B, h ▸ hm, h ▸ hcm⟩
  | b :: rest, maps, maps', B, hpw, hlb, hm, hcm, hok => by
    simp only [digest_fold] at hok
    rcases hstep : digest_input_step S block maps b with maps1 | e <;>
      rw [hstep] at hok
    · rcases digest_input_step_good S maps maps1 hm hcm (hlb b (by simp)) hstep with
        ⟨hm1, hcm1⟩
      exact digest_fold_good S rest maps1 maps' b
        ((List.pairwise_cons.mp hpw).2)
        (fun c hc => (List.pairwise_cons.mp hpw).1 c hc) hm1 hcm1 hok
    · exact absurd hok (by simp)
    · exact absurd hok (by simp)

theorem digest_build_iterator_ascending (config : ConfigurationRange) (N : Nat) :
    List.Pairwise (· ≤ ·) (digest_build_iterator config N) := by
  unfold digest_build_iterator
  rcases digest_level_at_block config.config config.zero N with _ | L
  · simp
  · simp only
    apply List.Pairwise.sublist (List.filter_sublist _)
    rw [List.pairwise_map]
    apply (List.pairwise_lt_range _).imp
    intro a b hab
    have : config.config.digest_interval - (b + 1) ≤
        config.config.digest_interval - (a + 1) := by omega
    exact Nat.sub_le_sub_left
      (Nat.mul_le_mul_right _ this) N

/-- The guard inside insert_to_map: when the key is already present and the last stored
block equals the digest build block, the map is returned unchanged. -/
theorem insert_to_map_last_noop (N b : Nat) (k : Bytes) :
    ∀ (m : DigMap) (di : DigestIndex) (l : List Nat),
    mapSorted m → mapLookup k m = some (di, l) → l.getLast? = some b →
    insert_to_map N b m k = m
  | [], di, l, _, hlk, _ => by simp [mapLookup] at hlk
  | (k', v) :: t, di, l, hs, hlk, hlast => by
    have hs0 : List.Pairwise (fun a b => bytesLt a b = true)
        (k' :: List.map Prod.fst t) := by
      simpa only [mapSorted, bkeys, List.map_cons] using hs
    have hp := List.pairwise_cons.mp hs0
    have hs' : mapSorted t := hp.2
    by_cases hk : k = k'
    · subst hk
      simp only [mapLookup, if_pos rfl] at hlk
      injection hlk with hv
      simp only [insert_to_map, mapInsertWith, bytesLt_irrefl]
      simp [hv, hlast]
    · simp only [mapLookup, if_neg hk] at hlk
      have hkmem : k ∈ bkeys t := mem_bkeys_of_mapLookup k (di, l) t hlk
      have hlt : bytesLt k' k = true := hp.1 k (by simpa [bkeys] using hkmem)
      have hnlt : bytesLt k k' = false := bytesLt_asymm hlt
      simp only [insert_to_map, mapInsertWith]
      rw [if_neg (by simp [hnlt]), if_neg hk]
      have ih := insert_to_map_last_noop N b k t di l hs' hlk hlast
      simp only [insert_to_map] at ih
      rw [ih]

/-- C1: with config.end = Some(N) for pending block N, prepare_digest_input enumerates
coverage with digest_build_iterator at the end of next_max_level_digest_range(zero, N),
but every DigestIndex pair it emits, in the top scope and in every child scope, carries
block = N rather than the max-level boundary block. -/
theorem C1_skewed_digest_stamping (S : StorageModel) (config : ConfigurationRange)
    (block : Nat) (top : List InputPair)
    (children : List (ChildIndex × List InputPair)) (covered : List Nat)
    (nstart nend : Nat)
    (hend : config.«end» = some block)
    (hrange : next_max_level_digest_range config.config config.zero block =
      some (nstart, nend))
    (hok : prepare_digest_input S config block = .ok (top, children, covered)) :
    covered = digest_build_iterator config nend ∧
    (∀ p ∈ top, ∀ di l, p = InputPair.digestIndex di l → di.block = block) ∧
    (∀ e ∈ children, e.1.block = block ∧
      ∀ p ∈ e.2, ∀ di l, p = InputPair.digestIndex di l → di.block = block) := by
  have hbfd : block_for_digest_of config block = nend := by
    simp [block_for_digest_of, hend, hrange]
  simp only [prepare_digest_input, hbfd] at hok
  rcases hfold : digest_fold S block ([], []) (digest_build_iterator config nend) with
    maps | e | _ <;> rw [hfold] at hok
  · injection hok with h
    have htop : maps.1.map (fun e => InputPair.digestIndex e.2.1 e.2.2) = top :=
      congrArg (fun x : _ × _ × _ => x.1) h
    have hch : maps.2.map (fun e =>
        (({ block := block, storage_key := e.1 } : ChildIndex),
         e.2.map (fun p => InputPair.digestIndex p.2.1 p.2.2))) = children :=
      congrArg (fun x : _ × _ × _ => x.2.1) h
    have hcov : digest_build_iterator config nend = covered :=
      congrArg (fun x : _ × _ × _ => x.2.2) h
    rcases digest_fold_good S (digest_build_iterator config nend) ([], []) maps 0
      (digest_build_iterator_ascending config nend) (fun c _ => Nat.zero_le c)
      (digMapGood_nil 0 block) (childMapGood_nil 0 block) hfold with ⟨B', hgm, hgcm⟩
    refine ⟨hcov.symm, ?_, ?_⟩
    · intro p hp di l hpe
      rw [← htop] at hp
      rcases List.mem_map.mp hp with ⟨me, hme, hpe2⟩
      have : di = me.2.1 := by rw [hpe] at hpe2; injection hpe2.symm with h1 h2
      rw [this]
      exact (hgm.2 me hme).2.1
    · intro e he
      rw [← hch] at he
      rcases List.mem_map.mp he with ⟨ce, hce, hee⟩
      constructor
      · rw [← hee]
      · intro p hp di l hpe
        rw [← hee] at hp
        simp only at hp
        rcases List.mem_map.mp hp with ⟨me, hme, hpe2⟩
        have : di = me.2.1 := by rw [hpe] at hpe2; injection hpe2.symm with h1 h2
        rw [this]
        exact ((hgcm.2 ce hce).2 me hme).2.1
  · exact absurd hok (by simp)
  · exact absurd hok (by simp)

/-- Concrete historical-root storage used by witnesses, mirroring the Rust test fixture
prepare_for_build with zero = 0: changes tries recorded for blocks 1..15, the child trie
of storage key 49 hanging off blocks 1, 2 and 4; root hashes have length 2. -/
def wStorage : StorageModel :=
  { hashLen := 2,
    root := fun b => if 1 ≤ b ∧ b ≤ 15 then .ok (some [0, b]) else .ok none,
    cachedChangedKeys := fun _ => none,
    trie := fun r =>
      if r = [0, 1] then
        ⟨[(some [49], some [49, 1])], [some [100], some [101], some [105]], []⟩
      else if r = [0, 2] then ⟨[(some [49], some [49, 2])], [some [102]], []⟩
      else if r = [0, 3] then ⟨[], [some [100], some [105]], []⟩
      else if r = [0, 4] then
        ⟨[(some [49], some [49, 4])], [some [100], some [101], some [103]],
         [some [100], some [101], some [102], some [105]]⟩
      else if r = [0, 6] then ⟨[], [some [105]], []⟩
      else if r = [0, 8] then ⟨[], [], [some [105]]⟩
      else if r = [49, 1] then ⟨[], [some [100], some [101], some [105]], []⟩
      else if r = [49, 2] then ⟨[], [some [102]], []⟩
      else if r = [49, 4] then ⟨[], [], [some [102]]⟩
      else ⟨[], [], []⟩ }

/-- Skewed configuration for the C1 witness: interval 4, levels 2, zero 0, end 11. -/
def wCfgSkew : ConfigurationRange := ⟨⟨4, 2⟩, 0, some 11⟩

/-- Expected top DigestIndex output of the skewed digest at block 11. -/
def w1top : List InputPair :=
  [.digestIndex ⟨11, [100]⟩ [4], .digestIndex ⟨11, [101]⟩ [4],
   .digestIndex ⟨11, [102]⟩ [4], .digestIndex ⟨11, [103]⟩ [4],
   .digestIndex ⟨11, [105]⟩ [4, 8]]

/-- Expected child DigestIndex output of the skewed digest at block 11. -/
def w1children : List (ChildIndex × List InputPair) :=
  [(⟨11, [49]⟩, [.digestIndex ⟨11, [102]⟩ [4]])]

/-- Witness for C1: the skewed digest at block 11 with end = Some 11 covers 4, 8, 12
(the coverage of the max-level digest at 16) while stamping every pair with 11. -/
theorem C1_skewed_digest_stamping_witness :
    wCfgSkew.«end» = some 11 ∧
    next_max_level_digest_range wCfgSkew.config wCfgSkew.zero 11 = some (1, 16) ∧
    prepare_digest_input wStorage wCfgSkew 11 = .ok (w1top, w1children, [4, 8, 12]) ∧
    ([4, 8, 12] = digest_build_iterator wCfgSkew 16 ∧
     (∀ p ∈ w1top, ∀ di l, p = InputPair.digestIndex di l → di.block = 11) ∧
     (∀ e ∈ w1children, e.1.block = 11 ∧
       ∀ p ∈ e.2, ∀ di l, p = InputPair.digestIndex di l → di.block = 11)) := by
  have h1 : wCfgSkew.«end» = some 11 := rfl
  have h2 : next_max_level_digest_range wCfgSkew.config wCfgSkew.zero 11 =
      some (1, 16) := rfl
  have h3 : prepare_digest_input wStorage wCfgSkew 11 =
      .ok (w1top, w1children, [4, 8, 12]) := rfl
  exact ⟨h1, h2, h3,
    C1_skewed_digest_stamping wStorage wCfgSkew 11 w1top w1children [4, 8, 12]
      1 16 h1 h2 h3⟩

/-- Backend for the C2 witness: only key 100 exists in durable storage. -/
def w2Backend : BackendModel :=
  { exists_storage := fun k => .ok (decide (k = [100])),
    exists_child_storage := fun _ _ k => .ok (decide (k = [100])) }

/-- Overlay for the C2 witness: key 110 is transiently written (deleted at the end) in
the top scope by extrinsic 1 and in child 49 by extrinsic 2; key 100 has a real write. -/
def w2Changes : OverlayedChanges :=
  { prospective :=
      { top := [([110], ⟨none, some [1]⟩)],
        children := [([49], ([([110], ⟨none, some [2]⟩)], 1))] },
    committed := { top := [([100], ⟨some [7], some [0]⟩)], children := [] },
    collect_extrinsics := true }

/-- Witness for C2: the temporary key 110 is dropped from the top scope and from child
scope 49, in both cases because the backend reports it never existed. -/
theorem C2_temporary_write_suppression_witness :
    ((w2Changes.storage [110]).map Option.isSome).getD false = false ∧
    w2Backend.exists_storage [110] = .ok false ∧
    prepare_extrinsics_input w2Backend 4 w2Changes =
      .ok ([InputPair.extrinsicIndex ⟨4, [100]⟩ [0]], [(⟨4, [49]⟩, [])]) ∧
    (∀ p ∈ [InputPair.extrinsicIndex ⟨4, [100]⟩ [0]],
      InputPair.ikey p ≠ [110]) ∧
    (∀ ci pairs, (ci, pairs) ∈ [((⟨4, [49]⟩ : ChildIndex), ([] : List InputPair))] →
      ((w2Changes.child_storage ci.storage_key [110]).map Option.isSome).getD false =
        false →
      (∀ info, w2Changes.child_info ci.storage_key = some info →
        w2Backend.exists_child_storage ci.storage_key info [110] = .ok false) →
      ∀ p ∈ pairs, InputPair.ikey p ≠ [110]) := by
  have hok : prepare_extrinsics_input w2Backend 4 w2Changes =
      .ok ([InputPair.extrinsicIndex ⟨4, [100]⟩ [0]], [(⟨4, [49]⟩, [])]) := by rfl
  have hc := C2_temporary_write_suppression w2Backend w2Changes 4 [110] _ _ hok
  exact ⟨rfl, rfl, hok, hc.1 rfl rfl, hc.2⟩

/-- C5: in every scope the DigestIndex pairs emitted by the digest pass are ordered by
strictly ascending key and every DigestIndex value list is strictly ascending (sorted
without duplicates), given that the covered-blocks sequence fed into insert_to_map is
ascending; moreover insert_to_map appends a block to an existing list only when the
list's last element differs from it. -/
theorem C5_digest_ordering (S : StorageModel) (config : ConfigurationRange)
    (block : Nat) (top : List InputPair)
    (children : List (ChildIndex × List InputPair)) (covered : List Nat)
    (hok : prepare_digest_input S config block = .ok (top, children, covered))
    (hasc : List.Chain' (· ≤ ·) covered) :
    List.Pairwise (fun p q => bytesLt p.ikey q.ikey = true) top ∧
    (∀ p ∈ top, List.Chain' (· < ·) p.ival) ∧
    (∀ e ∈ children,
      List.Pairwise (fun p q => bytesLt p.ikey q.ikey = true) e.2 ∧
      ∀ p ∈ e.2, List.Chain' (· < ·) p.ival) ∧
    (∀ (N b : Nat) (k : Bytes) (m : DigMap) (di : DigestIndex) (l : List Nat),
      mapSorted m → mapLookup k m = some (di, l) → l.getLast? = some b →
      insert_to_map N b m k = m) := by
  simp only [prepare_digest_input] at hok
  rcases hfold : digest_fold S block ([], [])
      (digest_build_iterator config (block_for_digest_of config block)) with
    maps | e | _ <;> rw [hfold] at hok
  · injection hok with h
    have htop : maps.1.map (fun e => InputPair.digestIndex e.2.1 e.2.2) = top :=
      congrArg (fun x : _ × _ × _ => x.1) h
    have hch : maps.2.map (fun e =>
        (({ block := block, storage_key := e.1 } : ChildIndex),
         e.2.map (fun p => InputPair.digestIndex p.2.1 p.2.2))) = children :=
      congrArg (fun x : _ × _ × _ => x.2.1) h
    have hcov : digest_build_iterator config (block_for_digest_of config block) =
        covered := congrArg (fun x : _ × _ × _ => x.2.2) h
    have hpw : List.Pairwise (· ≤ ·)
        (digest_build_iterator config (block_for_digest_of config block)) := by
      rw [hcov]
      exact List.chain'_iff_pairwise.mp hasc
    rcases digest_fold_good S _ ([], []) maps 0 hpw (fun c _ => Nat.zero_le c)
      (digMapGood_nil 0 block) (childMapGood_nil 0 block) hfold with ⟨B', hgm, hgcm⟩
    have keyPairwise : ∀ (m : DigMap), digMapGood B' block m →
        List.Pairwise (fun p q => bytesLt p.ikey q.ikey = true)
          (m.map (fun e => InputPair.digestIndex e.2.1 e.2.2)) := by
      intro m hg
      rw [List.pairwise_map]
      have hsor2 : List.Pairwise
          (fun e1 e2 : Bytes × (DigestIndex × List Nat) => bytesLt e1.1 e2.1 = true)
          m := by
        have hs := hg.1
        unfold mapSorted bkeys at hs
        rwa [List.pairwise_map] at hs
      refine hsor2.imp_of_mem ?_
      intro a b ha hb hab
      have ka := (hg.2 a ha).1
      have kb := (hg.2 b hb).1
      simpa [InputPair.ikey, ka, kb] using hab
    have valChain : ∀ (m : DigMap), digMapGood B' block m →
        ∀ p ∈ m.map (fun e => InputPair.digestIndex e.2.1 e.2.2),
          List.Chain' (· < ·) p.ival := by
      intro m hg p hp
      rcases List.mem_map.mp hp with ⟨me, hme, hpe⟩
      rw [← hpe]
      simpa [InputPair.ival] using (hg.2 me hme).2.2.2.1
    refine ⟨?_, ?_, ?_, ?_⟩
    · rw [← htop]; exact keyPairwise maps.1 hgm
    · rw [← htop]; exact valChain maps.1 hgm
    · intro e he
      rw [← hch] at he
      rcases List.mem_map.mp he with ⟨ce, hce, hee⟩
      have hgsub := hgcm.2 ce hce
      constructor
      · rw [← hee]; exact keyPairwise ce.2 hgsub
      · rw [← hee]; exact valChain ce.2 hgsub
    · intro N b k m di l hs hlk hl
      exact insert_to_map_last_noop N b k m di l hs hlk hl
  · exact absurd hok (by simp)
  · exact absurd hok (by simp)

/-- Non-skewed configuration for digest witnesses: interval 4, levels 2, zero 0. -/
def wCfg : ConfigurationRange := ⟨⟨4, 2⟩, 0, none⟩

/-- Expected top DigestIndex output of the level-2 digest at block 16. -/
def w5top : List InputPair :=
  [.digestIndex ⟨16, [100]⟩ [4], .digestIndex ⟨16, [101]⟩ [4],
   .digestIndex ⟨16, [102]⟩ [4], .digestIndex ⟨16, [103]⟩ [4],
   .digestIndex ⟨16, [105]⟩ [4, 8]]

/-- Expected child DigestIndex output of the level-2 digest at block 16. -/
def w5children : List (ChildIndex × List InputPair) :=
  [(⟨16, [49]⟩, [.digestIndex ⟨16, [102]⟩ [4]])]

/-- Witness for C5 at the concrete level-2 digest of block 16. -/
theorem C5_digest_ordering_witness :
    prepare_digest_input wStorage wCfg 16 = .ok (w5top, w5children, [4, 8, 12]) ∧
    List.Chain' (· ≤ ·) [4, 8, 12] ∧
    (List.Pairwise (fun p q => bytesLt p.ikey q.ikey = true) w5top ∧
     (∀ p ∈ w5top, List.Chain' (· < ·) p.ival) ∧
     (∀ e ∈ w5children,
       List.Pairwise (fun p q => bytesLt p.ikey q.ikey = true) e.2 ∧
       ∀ p ∈ e.2, List.Chain' (· < ·) p.ival) ∧
     (∀ (N b : Nat) (k : Bytes) (m : DigMap) (di : DigestIndex) (l : List Nat),
       mapSorted m → mapLookup k m = some (di, l) → l.getLast? = some b →
       insert_to_map N b m k = m)) := by
  have hok : prepare_digest_input wStorage wCfg 16 =
      .ok (w5top, w5children, [4, 8, 12]) := by rfl
  have hasc : List.Chain' (· ≤ ·) [4, 8, 12] :=
    List.chain'_cons.mpr ⟨by omega,
      List.chain'_cons.mpr ⟨by omega, List.chain'_singleton _⟩⟩
  exact ⟨hok, hasc,
    C5_digest_ordering wStorage wCfg 16 w5top w5children [4, 8, 12] hok hasc⟩

theorem digest_fold_append (S : StorageModel) (block : Nat) :
    ∀ (l1 l2 : List Nat) (maps : DigMap × ChildDigMap),
    digest_fold S block maps (l1 ++ l2) =
      match digest_fold S block maps l1 with
      | .ok maps' => digest_fold S block maps' l2
      | .err e => .err e
      | .panicked => .panicked
  | [], l2, maps => by simp [digest_fold]
  | b :: t, l2, maps => by
    simp only [List.cons_append, digest_fold]
    rcases digest_input_step S block maps b with maps1 | e | _
    · exact digest_fold_append S block t l2 maps1
    · rfl
    · rfl

/-- C4: if storage.root returns Ok(None) for a covered block b (the first failing one),
prepare_input returns Err with message exactly "No changes trie root for block {b}" and
the whole build aborts with no partial output. -/
theorem C4_missing_root_aborts (backend : BackendModel) (S : StorageModel)
    (config : ConfigurationRange) (changes : OverlayedChanges)
    (parent : AnchorBlockId) (pre rest : List Nat) (b : Nat)
    (maps : DigMap × ChildDigMap)
    (ext : List InputPair × List (ChildIndex × List InputPair))
    (hcov : digest_build_iterator config
      (block_for_digest_of config (parent.number + 1)) = pre ++ b :: rest)
    (hpre : digest_fold S (parent.number + 1) ([], []) pre = .ok maps)
    (hroot : S.root b = .ok none)
    (hext : prepare_extrinsics_input backend (parent.number + 1) changes = .ok ext) :
    prepare_digest_input S config (parent.number + 1) =
      .err ("No changes trie root for block " ++ toString b) ∧
    prepare_input backend S config changes parent =
      .err ("No changes trie root for block " ++ toString b) := by
  obtain ⟨te, ce⟩ := ext
  have hstep : digest_input_step S (parent.number + 1) maps b =
      .err ("No changes trie root for block " ++ toString b) := by
    simp [digest_input_step, hroot]
  have hfold : digest_fold S (parent.number + 1) ([], []) (pre ++ b :: rest) =
      .err ("No changes trie root for block " ++ toString b) := by
    rw [digest_fold_append, hpre]
    simp only [digest_fold, hstep]
  have hdig : prepare_digest_input S config (parent.number + 1) =
      .err ("No changes trie root for block " ++ toString b) := by
    simp only [prepare_digest_input, hcov, hfold]
  refine ⟨hdig, ?_⟩
  simp only [prepare_input, hext, hdig]

/-- Empty overlay for witnesses that do not need extrinsic-pass output. -/
def wEmptyChanges : OverlayedChanges :=
  { prospective := { top := [], children := [] },
    committed := { top := [], children := [] },
    collect_extrinsics := true }

/-- Storage with no recorded roots at all, for the C4 witness. -/
def wNoRootStorage : StorageModel :=
  { hashLen := 2,
    root := fun _ => .ok none,
    cachedChangedKeys := fun _ => none,
    trie := fun _ => ⟨[], [], []⟩ }

/-- Witness for C4: building the level-2 digest at block 16 with every root missing
aborts on the first covered block 4 with the exact formatted message. -/
theorem C4_missing_root_aborts_witness :
    digest_build_iterator wCfg (block_for_digest_of wCfg 16) = [] ++ 4 :: [8, 12] ∧
    wNoRootStorage.root 4 = .ok none ∧
    (prepare_digest_input wNoRootStorage wCfg 16 =
      .err ("No changes trie root for block " ++ toString 4) ∧
     prepare_input w2Backend wNoRootStorage wCfg wEmptyChanges ⟨0, 15⟩ =
      .err ("No changes trie root for block " ++ toString 4)) := by
  have hcov : digest_build_iterator wCfg (block_for_digest_of wCfg 16) =
      [] ++ 4 :: [8, 12] := by rfl
  have hroot : wNoRootStorage.root 4 = .ok none := rfl
  have hpre : digest_fold wNoRootStorage 16 ([], []) [] = .ok ([], []) := rfl
  have hext : prepare_extrinsics_input w2Backend 16 wEmptyChanges = .ok ([], []) := rfl
  exact ⟨hcov, hroot,
    C4_missing_root_aborts w2Backend wNoRootStorage wCfg wEmptyChanges ⟨0, 15⟩
      [] [8, 12] 4 ([], []) ([], []) hcov hpre hroot hext⟩

theorem collect_children_roots_panics (hashLen : Nat) :
    ∀ (e1 : List (Option Bytes × Option Bytes)) (sk v : Bytes)
      (e2 : List (Option Bytes × Option Bytes)) (acc : BMap Bytes),
    v.length ≠ hashLen →
    (∀ p ∈ e1, ∀ sk' v', p = (some sk', some v') → v'.length = hashLen) →
    collect_children_roots hashLen (e1 ++ (some sk, some v) :: e2) acc = .panicked
  | [], sk, v, e2, acc, hlen, _ => by
    simp only [List.nil_append, collect_children_roots]
    rw [if_neg hlen]
  | (p1, p2) :: t, sk, v, e2, acc, hlen, hpre => by
    simp only [List.cons_append, collect_children_roots]
    have hpre' : ∀ p ∈ t, ∀ sk' v', p = (some sk', some v') → v'.length = hashLen :=
      fun p hp => hpre p (List.mem_cons_of_mem _ hp)
    rcases p1 with _ | sk' <;> rcases p2 with _ | v'
    · exact collect_children_roots_panics hashLen t sk v e2 acc hlen hpre'
    · exact collect_children_roots_panics hashLen t sk v e2 acc hlen hpre'
    · exact collect_children_roots_panics hashLen t sk v e2 acc hlen hpre'
    · have hv' : v'.length = hashLen :=
        hpre (some sk', some v') (List.mem_cons_self _ _) sk' v' rfl
      show (if v'.length = hashLen then
          collect_children_roots hashLen (t ++ (some sk, some v) :: e2)
            (mapInsertWith sk' (fun _ => v') v' acc)
        else BuildResult.panicked) = BuildResult.panicked
      rw [if_pos hv']
      exact collect_children_roots_panics hashLen t sk v e2 _ hlen hpre'

/-- C8: a child-root value of an ancestor changes trie that decodes as a byte vector but
whose length differs from the hasher output length makes the digest pass panic in
copy_from_slice, rather than skipping the entry or returning Err; absence of panics thus
requires every decoded child-root value to have exactly the hash output length. -/
theorem C8_child_root_length_panic (S : StorageModel) (config : ConfigurationRange)
    (block : Nat) (pre rest : List Nat) (b : Nat) (maps : DigMap × ChildDigMap)
    (r : Bytes) (e1 : List (Option Bytes × Option Bytes)) (sk v : Bytes)
    (e2 : List (Option Bytes × Option Bytes))
    (hcov : digest_build_iterator config (block_for_digest_of config block) =
      pre ++ b :: rest)
    (hpre : digest_fold S block ([], []) pre = .ok maps)
    (hroot : S.root b = .ok (some r))
    (hcache : S.cachedChangedKeys r = none)
    (hentries : (S.trie r).childEntries = e1 ++ (some sk, some v) :: e2)
    (hlen : v.length ≠ S.hashLen)
    (hbefore : ∀ p ∈ e1, ∀ sk' v', p = (some sk', some v') →
      v'.length = S.hashLen) :
    digest_input_step S block maps b = .panicked ∧
    prepare_digest_input S config block = .panicked := by
  have hcr : collect_children_roots S.hashLen (S.trie r).childEntries [] = .panicked := by
    rw [hentries]
    exact collect_children_roots_panics S.hashLen e1 sk v e2 [] hlen hbefore
  have hstep : digest_input_step S block maps b = .panicked := by
    simp [digest_input_step, hroot, hcache, hcr]
  refine ⟨hstep, ?_⟩
  have hfold : digest_fold S block ([], []) (pre ++ b :: rest) = .panicked := by
    rw [digest_fold_append, hpre]
    simp only [digest_fold, hstep]
  simp only [prepare_digest_input, hcov, hfold]

/-- Storage for the C8 witness: the trie of covered block 4 carries a child-root value
of length 1 while the hasher output length is 2. -/
def wBadRootStorage : StorageModel :=
  { hashLen := 2,
    root := fun b => if 1 ≤ b ∧ b ≤ 15 then .ok (some [0, b]) else .ok none,
    cachedChangedKeys := fun _ => none,
    trie := fun r =>
      if r = [0, 4] then ⟨[(some [49], some [9])], [], []⟩
      else ⟨[], [], []⟩ }

/-- Witness for C8: the level-2 digest at block 16 panics on the malformed child-root
value of block 4. -/
theorem C8_child_root_length_panic_witness :
    (wBadRootStorage.trie [0, 4]).childEntries = [] ++ (some [49], some [9]) :: [] ∧
    ([9] : Bytes).length ≠ wBadRootStorage.hashLen ∧
    (digest_input_step wBadRootStorage 16 ([], []) 4 = .panicked ∧
     prepare_digest_input wBadRootStorage wCfg 16 = .panicked) := by
  have hcov : digest_build_iterator wCfg (block_for_digest_of wCfg 16) =
      [] ++ 4 :: [8, 12] := by rfl
  have hpre : digest_fold wBadRootStorage 16 ([], []) [] = .ok ([], []) := rfl
  have hroot : wBadRootStorage.root 4 = .ok (some [0, 4]) := rfl
  have hcache : wBadRootStorage.cachedChangedKeys [0, 4] = none := rfl
  have hentries : (wBadRootStorage.trie [0, 4]).childEntries =
      [] ++ (some [49], some [9]) :: [] := rfl
  have hlen : ([9] : Bytes).length ≠ wBadRootStorage.hashLen := by decide
  exact ⟨hentries, hlen,
    C8_child_root_length_panic wBadRootStorage wCfg 16 [] [8, 12] 4 ([], [])
      [0, 4] [] [49] [9] [] hcov hpre hroot hcache hentries hlen (by simp)⟩

theorem bkeys_insert_to_map (block b : Nat) (m : DigMap) (k a : Bytes) :
    a ∈ bkeys (insert_to_map block b m k) ↔ a = k ∨ a ∈ bkeys m :=
  bkeys_mapInsertWith _ _ _ m a

theorem bkeys_foldl_insert (block b : Nat) :
    ∀ (keys : List Bytes) (m : DigMap) (a : Bytes),
    a ∈ bkeys (keys.foldl (insert_to_map block b) m) ↔ a ∈ bkeys m ∨ a ∈ keys
  | [], m, a => by simp
  | k :: rest, m, a => by
    simp only [List.foldl_cons]
    rw [bkeys_foldl_insert block b rest (insert_to_map block b m k) a,
      bkeys_insert_to_map]
    simp only [List.mem_cons]
    tauto

theorem mergeCached_spec (block b : Nat) :
    ∀ (ck : List (Option Bytes × List Bytes)) (m : DigMap) (cm : ChildDigMap),
    mapSorted cm →
    (∀ a, a ∈ bkeys (mergeCached block b ck (m, cm)).1 ↔
      a ∈ bkeys m ∨ ∃ e ∈ ck, e.1 = none ∧ a ∈ e.2) ∧
    (∀ sk a,
      (∃ sub, mapLookup sk (mergeCached block b ck (m, cm)).2 = some sub ∧
        a ∈ bkeys sub) ↔
      ((∃ sub, mapLookup sk cm = some sub ∧ a ∈ bkeys sub) ∨
        ∃ e ∈ ck, e.1 = some sk ∧ a ∈ e.2))
  | [], m, cm, hcm => by
    constructor
    · intro a; simp [mergeCached]
    · intro sk a; simp [mergeCached]
  | (skOpt, keys) :: rest, m, cm, hcm => by
    rcases skOpt with _ | sk'
    · have heq : mergeCached block b ((none, keys) :: rest) (m, cm) =
          mergeCached block b rest (keys.foldl (insert_to_map block b) m, cm) := rfl
      rw [heq]
      rcases mergeCached_spec block b rest (keys.foldl (insert_to_map block b) m) cm
        hcm with ⟨ih1, ih2⟩
      constructor
      · intro a
        rw [ih1 a, bkeys_foldl_insert]
        simp only [List.exists_mem_cons_iff]
        simp only [and_true, eq_self_iff_true, true_and]
        tauto
      · intro sk a
        rw [ih2 sk a]
        simp only [List.exists_mem_cons_iff]
        simp only [reduceCtorEq, false_and, false_or]
    · have heq : mergeCached block b ((some sk', keys) :: rest) (m, cm) =
          mergeCached block b rest
            (m, mapInsertWith sk'
              (fun sub => keys.foldl (insert_to_map block b) sub)
              (keys.foldl (insert_to_map block b) []) cm) := rfl
      rw [heq]
      have hcm' : mapSorted (mapInsertWith sk'
          (fun sub => keys.foldl (insert_to_map block b) sub)
          (keys.foldl (insert_to_map block b) []) cm) :=
        mapSorted_mapInsertWith _ _ _ _ hcm
      rcases mergeCached_spec block b rest m _ hcm' with ⟨ih1, ih2⟩
      constructor
      · intro a
        rw [ih1 a]
        simp only [List.exists_mem_cons_iff, reduceCtorEq, false_and, false_or]
      · intro sk a
        rw [ih2 sk a]
        simp only [List.exists_mem_cons_iff, Option.some.injEq]
        by_cases hsk : sk' = sk
        · subst hsk
          rcases hlk : mapLookup sk' cm with _ | sub0
          · have hself : mapLookup sk' (mapInsertWith sk'
                (fun sub => keys.foldl (insert_to_map block b) sub)
                (keys.foldl (insert_to_map block b) []) cm) =
                some (keys.foldl (insert_to_map block b) []) := by
              rw [mapLookup_mapInsertWith_self sk' _ _ cm hcm, hlk]
            rw [hself]
            constructor
            · rintro (⟨sub, hsub, ha⟩ | h)
              · injection hsub with hsub
                rw [← hsub, bkeys_foldl_insert] at ha
                rcases ha with ha | ha
                · simp [bkeys] at ha
                · exact Or.inr (Or.inl ⟨rfl, ha⟩)
              · exact Or.inr (Or.inr h)
            · rintro (⟨sub, hsub, ha⟩ | ⟨_, ha⟩ | h)
              · exact absurd hsub (by simp)
              · exact Or.inl ⟨_, rfl,
                  (bkeys_foldl_insert block b keys [] a).mpr (Or.inr ha)⟩
              · exact Or.inr h
          · have hself : mapLookup sk' (mapInsertWith sk'
                (fun sub => keys.foldl (insert_to_map block b) sub)
                (keys.foldl (insert_to_map block b) []) cm) =
                some (keys.foldl (insert_to_map block b) sub0) := by
              rw [mapLookup_mapInsertWith_self sk' _ _ cm hcm, hlk]
            rw [hself]
            constructor
            · rintro (⟨sub, hsub, ha⟩ | h)
              · injection hsub with hsub
                rw [← hsub, bkeys_foldl_insert] at ha
                rcases ha with ha | ha
                · exact Or.inl ⟨sub0, rfl, ha⟩
                · exact Or.inr (Or.inl ⟨rfl, ha⟩)
              · exact Or.inr (Or.inr h)
            · rintro (⟨sub, hsub, ha⟩ | ⟨_, ha⟩ | h)
              · injection hsub with hsub
                exact Or.inl ⟨_, rfl,
                  (bkeys_foldl_insert block b keys sub0 a).mpr
                    (Or.inl (hsub ▸ ha))⟩
              · exact Or.inl ⟨_, rfl,
                  (bkeys_foldl_insert block b keys sub0 a).mpr (Or.inr ha)⟩
              · exact Or.inr h
        · rw [mapLookup_mapInsertWith_ne sk' sk _ _ cm (fun he => hsk he.symm)]
          constructor
          · rintro (h | h)
            · exact Or.inl h
            · exact Or.inr (Or.inr h)
          · rintro (h | ⟨hw, _⟩ | h)
            · exact Or.inl h
            · exact absurd hw hsk
            · exact Or.inr h

/-- C3: when the cached-changed-keys fast path hits for the trie root of a covered
block, the trie at that root is never opened (the step result is independent of the
entire trie content) and exactly the keys delivered by the callback are merged into the
top and child maps for that block. -/
theorem C3_cache_dominance (S : StorageModel) (block b : Nat) (m : DigMap)
    (cm : ChildDigMap) (r : Bytes) (ck : List (Option Bytes × List Bytes))
    (m' : DigMap) (cm' : ChildDigMap)
    (hcs : mapSorted cm)
    (hroot : S.root b = .ok (some r))
    (hcache : S.cachedChangedKeys r = some ck)
    (hstep : digest_input_step S block (m, cm) b = .ok (m', cm')) :
    (∀ T : Bytes → TrieContent,
      digest_input_step { S with trie := T } block (m, cm) b = .ok (m', cm')) ∧
    (∀ a, a ∈ bkeys m' ↔ a ∈ bkeys m ∨ ∃ e ∈ ck, e.1 = none ∧ a ∈ e.2) ∧
    (∀ sk a, (∃ sub, mapLookup sk cm' = some sub ∧ a ∈ bkeys sub) ↔
      ((∃ sub, mapLookup sk cm = some sub ∧ a ∈ bkeys sub) ∨
        ∃ e ∈ ck, e.1 = some sk ∧ a ∈ e.2)) := by
  have hmc : digest_input_step S block (m, cm) b =
      .ok (mergeCached block b ck (m, cm)) := by
    simp [digest_input_step, hroot, hcache]
  rw [hmc] at hstep
  injection hstep with h
  have hm' : (mergeCached block b ck (m, cm)).1 = m' := congrArg Prod.fst h
  have hcm' : (mergeCached block b ck (m, cm)).2 = cm' := congrArg Prod.snd h
  rcases mergeCached_spec block b ck m cm hcs with ⟨hs1, hs2⟩
  refine ⟨?_, ?_, ?_⟩
  · intro T
    simp only [digest_input_step, hroot, hcache]
    rw [h]
  · intro a
    rw [← hm']
    exact hs1 a
  · intro sk a
    rw [← hcm']
    exact hs2 sk a

/-- Storage for the C3 witness: block 4 resolves to a root with a cache entry covering
top keys 100, 102 and child 49 keys 103, 104; the trie content is irrelevant. -/
def w3Storage : StorageModel :=
  { hashLen := 2,
    root := fun b => if b = 4 then .ok (some [0, 4]) else .ok none,
    cachedChangedKeys := fun r =>
      if r = [0, 4] then some [(none, [[100], [102]]), (some [49], [[103], [104]])]
      else none,
    trie := fun _ => ⟨[], [], []⟩ }

/-- The cached changed-keys map delivered for root of block 4 in the C3 witness. -/
def w3ck : List (Option Bytes × List Bytes) :=
  [(none, [[100], [102]]), (some [49], [[103], [104]])]

/-- Expected top map after merging the C3 witness cache entry. -/
def w3m : DigMap := [([100], (⟨16, [100]⟩, [4])), ([102], (⟨16, [102]⟩, [4]))]

/-- Expected child map after merging the C3 witness cache entry. -/
def w3cm : ChildDigMap :=
  [([49], [([103], (⟨16, [103]⟩, [4])), ([104], (⟨16, [104]⟩, [4]))])]

/-- Witness for C3 at the concrete cache hit of block 4. -/
theorem C3_cache_dominance_witness :
    mapSorted ([] : ChildDigMap) ∧
    w3Storage.root 4 = .ok (some [0, 4]) ∧
    w3Storage.cachedChangedKeys [0, 4] = some w3ck ∧
    digest_input_step w3Storage 16 ([], []) 4 = .ok (w3m, w3cm) ∧
    ((∀ T : Bytes → TrieContent,
       digest_input_step { w3Storage with trie := T } 16 ([], []) 4 =
         .ok (w3m, w3cm)) ∧
     (∀ a, a ∈ bkeys w3m ↔ a ∈ bkeys ([] : DigMap) ∨
        ∃ e ∈ w3ck, e.1 = none ∧ a ∈ e.2) ∧
     (∀ sk a, (∃ sub, mapLookup sk w3cm = some sub ∧ a ∈ bkeys sub) ↔
       ((∃ sub, mapLookup sk ([] : ChildDigMap) = some sub ∧ a ∈ bkeys sub) ∨
         ∃ e ∈ w3ck, e.1 = some sk ∧ a ∈ e.2))) := by
  have hcs : mapSorted ([] : ChildDigMap) := by simp [mapSorted, bkeys]
  have hroot : w3Storage.root 4 = .ok (some [0, 4]) := rfl
  have hcache : w3Storage.cachedChangedKeys [0, 4] = some w3ck := rfl
  have hstep : digest_input_step w3Storage 16 ([], []) 4 = .ok (w3m, w3cm) := rfl
  exact ⟨hcs, hroot, hcache, hstep,
    C3_cache_dominance w3Storage 16 4 [] [] [0, 4] w3ck w3m w3cm hcs hroot hcache
      hstep⟩

theorem setInsert_pairwise (k : Bytes) (s : List Bytes)
    (hs : List.Pairwise (fun a b => bytesLt a b = true) s) :
    List.Pairwise (fun a b => bytesLt a b = true) (setInsert k s) := by
  induction s with
  | nil => simp [setInsert]
  | cons k' t ih =>
    rcases List.pairwise_cons.mp hs with ⟨h1, h2⟩
    simp only [setInsert]
    split
    · rename_i hlt
      refine List.pairwise_cons.mpr ⟨?_, hs⟩
      intro y hy
      rcases List.mem_cons.mp hy with hy | hy
      · subst hy; exact hlt
      · exact bytesLt_trans hlt (h1 y hy)
    · split
      · rename_i hlt heq; subst heq; exact hs
      · rename_i hlt hne
        have hk'k : bytesLt k' k = true := by
          cases hc : bytesLt k' k with
          | true => rfl
          | false => exact absurd (bytesLt_antisymm (by simpa using hlt) hc) hne
        refine List.pairwise_cons.mpr ⟨?_, ih h2⟩
        intro y hy
        rcases (mem_setInsert k y t).mp hy with hy | hy
        · subst hy; exact hk'k
        · exact h1 y hy

theorem children_keys_sorted (changes : OverlayedChanges) :
    List.Pairwise (fun a b => bytesLt a b = true) (children_keys_of changes) := by
  unfold children_keys_of
  generalize changes.prospective.children ++ changes.committed.children = l
  have hgen : ∀ (l : BMap (BMap OverlayedValue × ChildInfo)) (s0 : List Bytes),
      List.Pairwise (fun a b => bytesLt a b = true) s0 →
      List.Pairwise (fun a b => bytesLt a b = true)
        (l.foldl (fun s e => setInsert e.1 s) s0) := by
    intro l
    induction l with
    | nil => intro s0 h0; exact h0
    | cons e t ih =>
      intro s0 h0
      simp only [List.foldl_cons]
      exact ih _ (setInsert_pairwise e.1 s0 h0)
  exact hgen l [] (by simp)

theorem prepare_children_extrinsics_keys (backend : BackendModel) (block : Nat)
    (changes : OverlayedChanges) :
    ∀ (sks : List Bytes) (l : List (ChildIndex × List InputPair)),
    prepare_children_extrinsics backend block changes sks = .ok l →
    l.map Prod.fst =
      sks.map (fun sk => ({ block := block, storage_key := sk } : ChildIndex))
  | [], l, hok => by
    simp only [prepare_children_extrinsics] at hok
    injection hok with h; subst h; simp
  | sk :: rest, l, hok => by
    simp only [prepare_children_extrinsics] at hok
    rcases hinner : prepare_extrinsics_input_inner backend block changes (some sk) with
      e | ps <;> rw [hinner] at hok
    · exact absurd hok (by simp)
    · rcases hrest : prepare_children_extrinsics backend block changes rest with
        e | others <;> rw [hrest] at hok
      · exact absurd hok (by simp)
      · injection hok with h; subst h
        simp only [List.map_cons]
        rw [prepare_children_extrinsics_keys backend block changes rest others hrest]

theorem lookupChild_removeChild_ne (ci ci' : ChildIndex) (hne : ci ≠ ci') :
    ∀ (l : List (ChildIndex × List InputPair)),
    lookupChild ci (removeChild ci' l) = lookupChild ci l
  | [] => rfl
  | e :: t => by
    simp only [removeChild, List.filter_cons]
    by_cases he : e.1 = ci'
    · rw [if_neg (by simp [he])]
      have : lookupChild ci (removeChild ci' t) = lookupChild ci t :=
        lookupChild_removeChild_ne ci ci' hne t
      simp only [removeChild] at this
      rw [this]
      simp only [lookupChild]
      rw [if_neg (by simp only [he, beq_iff_eq]; exact fun hc => hne hc.symm)]
    · rw [if_pos (by simp [he])]
      simp only [lookupChild]
      split
      · rfl
      · have : lookupChild ci (removeChild ci' t) = lookupChild ci t :=
          lookupChild_removeChild_ne ci ci' hne t
        simpa only [removeChild] using this

theorem mem_keys_removeChild (ci' : ChildIndex)
    (l : List (ChildIndex × List InputPair)) (a : ChildIndex) :
    a ∈ (removeChild ci' l).map Prod.fst ↔ a ∈ l.map Prod.fst ∧ a ≠ ci' := by
  induction l with
  | nil => simp [removeChild]
  | cons e t ih =>
    simp only [removeChild, List.filter_cons]
    by_cases he : e.1 = ci'
    · rw [if_neg (by simp [he])]
      simp only [removeChild] at ih
      rw [ih]
      simp only [List.map_cons, List.mem_cons]
      constructor
      · rintro ⟨h1, h2⟩; exact ⟨Or.inr h1, h2⟩
      · rintro ⟨h1 | h1, h2⟩
        · exact absurd (h1.trans he) h2
        · exact ⟨h1, h2⟩
    · rw [if_pos (by simp [he])]
      simp only [List.map_cons, List.mem_cons]
      simp only [removeChild] at ih
      rw [ih]
      constructor
      · rintro (h | ⟨h1, h2⟩)
        · exact ⟨Or.inl h, fun hc => he (by rw [← h]; exact hc ▸ rfl)⟩
        · exact ⟨Or.inr h1, h2⟩
      · rintro ⟨h1 | h1, h2⟩
        · exact Or.inl h1
        · exact Or.inr ⟨h1, h2⟩

theorem nodup_keys_removeChild (ci' : ChildIndex)
    (l : List (ChildIndex × List InputPair))
    (h : (l.map Prod.fst).Nodup) : ((removeChild ci' l).map Prod.fst).Nodup :=
  (h.sublist (List.Sublist.map Prod.fst (List.filter_sublist l)))

theorem lookupChild_isSome_of_mem (ci : ChildIndex) :
    ∀ (l : List (ChildIndex × List InputPair)),
    ci ∈ l.map Prod.fst → ∃ v, lookupChild ci l = some v
  | [], h => by simp at h
  | e :: t, h => by
    simp only [lookupChild]
    by_cases he : e.1 = ci
    · exact ⟨e.2, by rw [if_pos (by simp [he])]⟩
    · simp only [List.map_cons, List.mem_cons] at h
      rcases h with h | h
      · exact absurd h.symm he
      · rcases lookupChild_isSome_of_mem ci t h with ⟨v, hv⟩
        exact ⟨v, by rw [if_neg (by simp [he]), hv]⟩

theorem mem_keys_mergeChildIters :
    ∀ (ext dig : List (ChildIndex × List InputPair)) (a : ChildIndex),
    a ∈ (mergeChildIters ext dig).map Prod.fst →
    a ∈ ext.map Prod.fst ∨ a ∈ dig.map Prod.fst
  | [], dig, a, h => Or.inr h
  | e :: rest, dig, a, h => by
    simp only [mergeChildIters, List.map_cons, List.mem_cons] at h
    rcases h with h | h
    · exact Or.inl (by simp [h])
    · rcases mem_keys_mergeChildIters rest (removeChild e.1 dig) a h with h1 | h1
      · exact Or.inl (by simp [h1])
      · exact Or.inr ((mem_keys_removeChild e.1 dig a).mp h1).1

theorem filter_key_eq_of_lookup (ci : ChildIndex) :
    ∀ (l : List (ChildIndex × List InputPair)) (v : List InputPair),
    (l.map Prod.fst).Nodup → lookupChild ci l = some v →
    l.filter (fun e => e.1 == ci) = [(ci, v)]
  | [], v, _, hlk => by simp [lookupChild] at hlk
  | e :: t, v, hnd, hlk => by
    simp only [lookupChild] at hlk
    simp only [List.filter_cons]
    by_cases he : e.1 = ci
    · rw [if_pos (by simp [he])] at hlk ⊢
      injection hlk with hv
      have hci : ci ∉ t.map Prod.fst := by
        have hnd' : (e.1 :: t.map Prod.fst).Nodup := by
          simpa only [List.map_cons] using hnd
        have hh := (List.nodup_cons.mp hnd').1
        rw [he] at hh
        exact hh
      have hnil : t.filter (fun e => e.1 == ci) = [] := by
        rw [List.filter_eq_nil_iff]
        intro p hp hpc
        exact hci (by
          have : p.1 = ci := by simpa using hpc
          rw [← this]
          exact List.mem_map_of_mem Prod.fst hp)
      rw [hnil]
      have : e = (ci, v) := by
        obtain ⟨e1, e2⟩ := e
        simp only at he hv
        rw [he, hv]
      rw [this]
    · rw [if_neg (by simp [he])] at hlk ⊢
      have hnd' : (e.1 :: t.map Prod.fst).Nodup := by
        simpa only [List.map_cons] using hnd
      exact filter_key_eq_of_lookup ci t v (List.nodup_cons.mp hnd').2 hlk

theorem mergeChildIters_filter (ci : ChildIndex) :
    ∀ (ext dig : List (ChildIndex × List InputPair)),
    (ext.map Prod.fst).Nodup → (dig.map Prod.fst).Nodup →
    (ci ∈ ext.map Prod.fst ∨ ci ∈ dig.map Prod.fst) →
    (mergeChildIters ext dig).filter (fun e => e.1 == ci) =
      [(ci, (lookupChild ci ext).getD [] ++ (lookupChild ci dig).getD [])]
  | [], dig, _, hnd, hmem => by
    rcases hmem with h | h
    · simp at h
    · rcases lookupChild_isSome_of_mem ci dig h with ⟨v, hv⟩
      simp only [mergeChildIters, lookupChild, hv]
      rw [filter_key_eq_of_lookup ci dig v hnd hv]
      simp
  | e :: rest, dig, hne, hnd, hmem => by
    obtain ⟨ec, ev⟩ := e
    simp only [mergeChildIters]
    by_cases hec : ec = ci
    · subst hec
      rw [List.filter_cons, if_pos (by simp)]
      have hne' : (ec :: rest.map Prod.fst).Nodup := by
        simpa only [List.map_cons] using hne
      have hecnot : ec ∉ rest.map Prod.fst := (List.nodup_cons.mp hne').1
      have htail : (mergeChildIters rest (removeChild ec dig)).filter
          (fun e => e.1 == ec) = [] := by
        rw [List.filter_eq_nil_iff]
        intro p hp hpc
        have hpc' : p.1 = ec := by simpa using hpc
        rcases mem_keys_mergeChildIters rest (removeChild ec dig) p.1
          (List.mem_map_of_mem Prod.fst hp) with h1 | h1
        · exact hecnot (hpc' ▸ h1)
        · exact ((mem_keys_removeChild ec dig p.1).mp h1).2 hpc'
      rw [htail]
      simp [lookupChild]
    · rw [List.filter_cons, if_neg (by simp [hec])]
      have hmem' : ci ∈ rest.map Prod.fst ∨
          ci ∈ (removeChild ec dig).map Prod.fst := by
        rcases hmem with h | h
        · simp only [List.map_cons, List.mem_cons] at h
          rcases h with h | h
          · exact absurd h.symm hec
          · exact Or.inl h
        · exact Or.inr ((mem_keys_removeChild ec dig ci).mpr
            ⟨h, fun hc => hec hc.symm⟩)
      have hne' : (ec :: rest.map Prod.fst).Nodup := by
        simpa only [List.map_cons] using hne
      rw [mergeChildIters_filter ci rest (removeChild ec dig)
        (List.nodup_cons.mp hne').2
        (nodup_keys_removeChild ec dig hnd) hmem']
      rw [lookupChild_removeChild_ne ci ec (fun hc => hec hc.symm) dig]
      simp only [lookupChild]
      rw [if_neg (by simp [hec])]

/-- C6: for every ChildIndex appearing in the extrinsic pass's child map or in the
digest pass's child map (or both), prepare_input's returned child list has exactly one
entry for that ChildIndex, yielding the extrinsic-pass pairs followed by the
digest-pass pairs; in particular a ChildIndex present only in the digest pass is not
dropped. -/
theorem C6_children_outer_join (backend : BackendModel) (S : StorageModel)
    (config : ConfigurationRange) (changes : OverlayedChanges)
    (parent : AnchorBlockId) (top : List InputPair)
    (children : List (ChildIndex × List InputPair)) (covered : List Nat)
    (te td : List InputPair) (ce cd : List (ChildIndex × List InputPair))
    (cov2 : List Nat)
    (hext : prepare_extrinsics_input backend (parent.number + 1) changes =
      .ok (te, ce))
    (hdig : prepare_digest_input S config (parent.number + 1) = .ok (td, cd, cov2))
    (hok : prepare_input backend S config changes parent =
      .ok (top, children, covered)) :
    ∀ ci, (ci ∈ ce.map Prod.fst ∨ ci ∈ cd.map Prod.fst) →
      children.filter (fun e => e.1 == ci) =
        [(ci, (lookupChild ci ce).getD [] ++ (lookupChild ci cd).getD [])] := by
  have hchildren : children = mergeChildIters ce cd := by
    simp only [prepare_input, hext, hdig] at hok
    injection hok with h
    exact (congrArg (fun x : _ × _ × _ => x.2.1) h).symm
  have hmkinj : Function.Injective
      (fun sk => ({ block := parent.number + 1, storage_key := sk } : ChildIndex)) := by
    intro a b hab
    injection hab with h1 h2
  have hce_nodup : (ce.map Prod.fst).Nodup := by
    have hex : ∃ l, prepare_children_extrinsics backend (parent.number + 1) changes
        (children_keys_of changes) = .ok l ∧ l = ce := by
      simp only [prepare_extrinsics_input] at hext
      rcases hch : prepare_children_extrinsics backend (parent.number + 1) changes
          (children_keys_of changes) with e | cr <;> rw [hch] at hext
      · exact absurd hext (by simp)
      · rcases htp : prepare_extrinsics_input_inner backend (parent.number + 1)
            changes none with e | tp <;> rw [htp] at hext
        · exact absurd hext (by simp)
        · injection hext with h
          exact ⟨cr, rfl, congrArg Prod.snd h⟩
    rcases hex with ⟨l, hl, hlce⟩
    subst hlce
    rw [prepare_children_extrinsics_keys backend _ changes _ l hl]
    exact List.Nodup.map hmkinj ((children_keys_sorted changes).imp ne_of_bytesLt)
  have hcd_nodup : (cd.map Prod.fst).Nodup := by
    simp only [prepare_digest_input] at hdig
    rcases hfold : digest_fold S (parent.number + 1) ([], [])
        (digest_build_iterator config
          (block_for_digest_of config (parent.number + 1))) with maps | e | _ <;>
      rw [hfold] at hdig
    · injection hdig with h
      have hcd : maps.2.map (fun e =>
          (({ block := parent.number + 1, storage_key := e.1 } : ChildIndex),
           e.2.map (fun p => InputPair.digestIndex p.2.1 p.2.2))) = cd :=
        congrArg (fun x : _ × _ × _ => x.2.1) h
      rcases digest_fold_good S _ ([], []) maps 0
        (digest_build_iterator_ascending config _) (fun c _ => Nat.zero_le c)
        (digMapGood_nil 0 (parent.number + 1)) (childMapGood_nil 0 (parent.number + 1))
        hfold with ⟨B', hgm, hgcm⟩
      have hbk : (bkeys maps.2).Nodup := by
        have := hgcm.1
        unfold mapSorted at this
        exact this.imp ne_of_bytesLt
      rw [← hcd, List.map_map]
      have heqmap : (Prod.fst ∘ fun e : Bytes × DigMap =>
          (({ block := parent.number + 1, storage_key := e.1 } : ChildIndex),
           e.2.map (fun p => InputPair.digestIndex p.2.1 p.2.2))) =
          (fun sk => ({ block := parent.number + 1, storage_key := sk } : ChildIndex))
            ∘ Prod.fst := rfl
      rw [heqmap, ← List.map_map]
      exact List.Nodup.map hmkinj hbk
    · exact absurd hdig (by simp)
    · exact absurd hdig (by simp)
  intro ci hmem
  rw [hchildren]
  exact mergeChildIters_filter ci ce cd hce_nodup hcd_nodup hmem

/-- Overlay for the C6 witness: only child 50 carries an extrinsic-pass entry; child
49 appears only in the digest pass (from the level-1 digest at block 4). -/
def w6Changes : OverlayedChanges :=
  { prospective :=
      { top := [],
        children := [([50], ([([100], ⟨some [1], some [2]⟩)], 2))] },
    committed := { top := [], children := [] },
    collect_extrinsics := true }

/-- Extrinsic-pass child list of the C6 witness. -/
def w6ce : List (ChildIndex × List InputPair) :=
  [(⟨4, [50]⟩, [.extrinsicIndex ⟨4, [100]⟩ [2]])]

/-- Digest-pass top list of the C6 witness (level-1 digest at block 4). -/
def w6td : List InputPair :=
  [.digestIndex ⟨4, [100]⟩ [1, 3], .digestIndex ⟨4, [101]⟩ [1],
   .digestIndex ⟨4, [102]⟩ [2], .digestIndex ⟨4, [105]⟩ [1, 3]]

/-- Digest-pass child list of the C6 witness: child 49, absent from the extrinsic pass. -/
def w6cd : List (ChildIndex × List InputPair) :=
  [(⟨4, [49]⟩, [.digestIndex ⟨4, [100]⟩ [1], .digestIndex ⟨4, [101]⟩ [1],
    .digestIndex ⟨4, [102]⟩ [2], .digestIndex ⟨4, [105]⟩ [1]])]

/-- Witness for C6: the digest-only ChildIndex (block 4, child 49) is present exactly
once in prepare_input's merged child list, carrying its digest pairs. -/
theorem C6_children_outer_join_witness :
    prepare_extrinsics_input cxBackend 4 w6Changes = .ok ([], w6ce) ∧
    prepare_digest_input wStorage wCfg 4 = .ok (w6td, w6cd, [1, 2, 3]) ∧
    prepare_input cxBackend wStorage wCfg w6Changes ⟨0, 3⟩ =
      .ok (w6td, mergeChildIters w6ce w6cd, [1, 2, 3]) ∧
    ((⟨4, [49]⟩ : ChildIndex) ∈ w6cd.map Prod.fst) ∧
    (mergeChildIters w6ce w6cd).filter (fun e => e.1 == (⟨4, [49]⟩ : ChildIndex)) =
      [((⟨4, [49]⟩ : ChildIndex),
        (lookupChild ⟨4, [49]⟩ w6ce).getD [] ++
          (lookupChild ⟨4, [49]⟩ w6cd).getD [])] := by
  have hext : prepare_extrinsics_input cxBackend 4 w6Changes = .ok ([], w6ce) := by rfl
  have hdig : prepare_digest_input wStorage wCfg 4 = .ok (w6td, w6cd, [1, 2, 3]) := by
    rfl
  have hok : prepare_input cxBackend wStorage wCfg w6Changes ⟨0, 3⟩ =
      .ok (w6td, mergeChildIters w6ce w6cd, [1, 2, 3]) := by rfl
  have hmem : (⟨4, [49]⟩ : ChildIndex) ∈ w6cd.map Prod.fst := by
    simp [w6cd]
  exact ⟨hext, hdig, hok, hmem,
    C6_children_outer_join cxBackend wStorage wCfg w6Changes ⟨0, 3⟩ w6td
      (mergeChildIters w6ce w6cd) [1, 2, 3] [] w6td w6ce w6cd [1, 2, 3]
      hext hdig hok ⟨4, [49]⟩ (Or.inr hmem)⟩
